import Mathlib

/-!
# Namespace index and dynamic invocation core of `src/tool/foo/main.cpp`

A shallow embedding of the namespace tree (`winrt_ns`, `find_ns`, `get_ns`,
`get_namespace_map`), the signature analyser (`get_arg_types`,
`get_method_ffi_types`), the descriptor cache (`get_cif`) and the dispatch
invoker (`invoke`), followed by theorems about them.

Conventions of the embedding:
* a `std::string_view` is the list of its characters (`Str`);
* a `std::map<std::string_view, winrt_ns>` is the list of its entries in key
  order; `find` and `operator[]` locate a key with the ordering of the keys,
  as the container does;
* a pointer that may be null is an `Option`; a function that throws returns
  an `Except`.
-/

namespace Foo

/-- A `std::string_view`: the sequence of its characters. -/
abbrev Str := List Char

/-! ## The namespace tree -/

/-- The container `std::map<std::string_view, winrt_ns>`, as the list of its
entries in key order; an entry is a key together with the two fields of the
`winrt_ns` stored under it. -/
inductive NsMap (M : Type) where
  | nil : NsMap M
  | cons (key : Str) (sub_namespaces : NsMap M) (members : M) (rest : NsMap M) : NsMap M
  deriving DecidableEq

/-- The struct `winrt_ns`: the child namespaces and the members of a namespace. -/
structure winrt_ns (M : Type) where
  sub_namespaces : NsMap M
  members : M
  deriving DecidableEq

/-- A value-initialised `winrt_ns{}`: no child namespaces, default members. -/
def winrt_ns.empty {M : Type} [Inhabited M] : winrt_ns M :=
  ⟨.nil, default⟩

/-- The call `std::map::find(s)`: the node stored under the key `s`, or `none` for `end()`. -/
def NsMap.find {M : Type} : NsMap M → Str → Option (winrt_ns M)
  | .nil, _ => none
  | .cons k sub mem rest, s =>
    if s = k then some ⟨sub, mem⟩ else if s < k then none else rest.find s

/-- An entry of the map: the key and the node stored under it. -/
def NsMap.entry {M : Type} (k : Str) (q : winrt_ns M) (rest : NsMap M) : NsMap M :=
  .cons k q.sub_namespaces q.members rest

/-- The call `std::map::operator[](s)` followed by the update `f` of the node it
refers to: a missing key is first inserted, in key order, with a
value-initialised node. -/
def NsMap.alter {M : Type} [Inhabited M] (f : winrt_ns M → winrt_ns M) :
    NsMap M → Str → NsMap M
  | .nil, s => .entry s (f winrt_ns.empty) .nil
  | .cons k sub mem rest, s =>
    if s = k then .entry k (f ⟨sub, mem⟩) rest
    else if s < k then .entry s (f winrt_ns.empty) (.cons k sub mem rest)
    else .cons k sub mem (NsMap.alter f rest s)

/-- The call `std::string_view::find(c, 0)`: the position of the first `c`, `none` for `npos`. -/
def find_char (c : Char) : Str → Option Nat
  | [] => none
  | x :: xs => if x = c then some 0 else (find_char c xs).map (· + 1)

/-- The position `find` returns lies inside the string. -/
theorem find_char_lt (c : Char) (s : Str) (d : Nat) (h : find_char c s = some d) :
    d < s.length := by
  induction s generalizing d with
  | nil => simp [find_char] at h
  | cons x xs ih =>
    simp only [find_char] at h
    split at h
    · simp at h; subst h; simp
    · cases hh : find_char c xs with
      | none => simp [hh] at h
      | some e =>
        simp [hh] at h; subst h
        have := ih e hh
        simp only [List.length_cons]; omega

/-- The body of `find_ns`. The recursive call is made on `ns.substr(dot_pos + 1)`,
which is shorter than `ns`; `fuel` is a bound on the length of `ns` and only
serves to make that recursion structural. -/
def find_ns_rec {M : Type} :
    (fuel : Nat) → (namespaces : NsMap M) → (ns : Str) → ns.length < fuel → Option M
  | 0, _, _, h => absurd h (Nat.not_lt_zero _)
  | fuel + 1, namespaces, ns, _ =>
    match hd : find_char '.' ns with
    | none =>
      match namespaces.find ns with
      | none => none
      | some it => some it.members
    | some dot_pos =>
      match namespaces.find (ns.take dot_pos) with
      | none => none
      | some it =>
        find_ns_rec fuel it.sub_namespaces (ns.drop (dot_pos + 1))
          (by have := find_char_lt _ _ _ hd; simp only [List.length_drop]; omega)

/-- The function `find_ns`: a pointer to the members of the namespace `ns`, `none` for `nullptr`. -/
def find_ns {M : Type} (namespaces : NsMap M) (ns : Str) : Option M :=
  find_ns_rec (ns.length + 1) namespaces ns (Nat.lt_succ_self _)

/-- The function `get_ns`: the members `find_ns` points to, or the exception
`std::out_of_range{ std::string{ns} }`, represented by the string it carries. -/
def get_ns {M : Type} (namespaces : NsMap M) (ns : Str) : Except Str M :=
  match find_ns namespaces ns with
  | none => .error ns
  | some _ns => .ok _ns

/-- Modelled from the spec: `get_dotted_name_segments` is declared in `helpers.h`,
which is not among the sources; by section 4.1 it splits a flat path "on the
namespace separator into ordered segments". -/
def get_dotted_name_segments : Str → List Str
  | [] => [[]]
  | c :: cs =>
    if c = '.' then [] :: get_dotted_name_segments cs
    else
      match get_dotted_name_segments cs with
      | [] => [[c]]
      | s :: ss => (c :: s) :: ss

/-- The inner loop of `get_namespace_map` from its first iteration on, for the
segments `s, rest`, followed by `curns->members = members`: each iteration
takes `(*nsmap)[s]` and descends into its `sub_namespaces`; the node reached
by the last segment receives `members`. -/
def walk_segments {M : Type} [Inhabited M] (members : M) :
    Str → List Str → NsMap M → NsMap M
  | s, [], nsmap => nsmap.alter (fun q => ⟨q.sub_namespaces, members⟩) s
  | s, s2 :: rest, nsmap =>
    nsmap.alter
      (fun q => ⟨walk_segments members s2 rest q.sub_namespaces, q.members⟩) s

/-- One iteration of the outer loop of `get_namespace_map`. With no segment at
all `curns` is still `nullptr` at `curns->members = members`, which has no
defined behaviour: `none`. -/
def store_namespace {M : Type} [Inhabited M] (members : M) :
    List Str → NsMap M → Option (NsMap M)
  | [], _ => none
  | s :: rest, root_namespaces => some (walk_segments members s rest root_namespaces)

/-- The outer loop of `get_namespace_map` over the remaining `(ns, members)` pairs. -/
def get_namespace_map_loop {M : Type} [Inhabited M] :
    List (Str × M) → NsMap M → Option (NsMap M)
  | [], root_namespaces => some root_namespaces
  | (ns, members) :: more, root_namespaces =>
    match store_namespace members (get_dotted_name_segments ns) root_namespaces with
    | none => none
    | some next => get_namespace_map_loop more next

/-- The function `get_namespace_map`, on the `(ns, members)` pairs of `c.namespaces()`. -/
def get_namespace_map {M : Type} [Inhabited M] (c : List (Str × M)) : Option (NsMap M) :=
  get_namespace_map_loop c .nil

/-- The node reached from `nsmap` by following the segments one at a time, each
looked up among the children of the node reached so far; `none` when a
segment is missing or when there is no segment. -/
def node_at {M : Type} : List Str → NsMap M → Option (winrt_ns M)
  | [], _ => none
  | [s], nsmap => nsmap.find s
  | s :: s2 :: rest, nsmap =>
    match nsmap.find s with
    | none => none
    | some q => node_at (s2 :: rest) q.sub_namespaces

/-- The members of the node reached by following the segments. -/
def members_at {M : Type} (segs : List Str) (nsmap : NsMap M) : Option M :=
  (node_at segs nsmap).map winrt_ns.members

/-- The body of `find_ns` once more, with a bound on the number of nested calls:
every call, the outermost included, takes one unit of `depth`; `none` when the
bound is reached before `find_ns` has returned, `some r` when it returns `r`. -/
def find_ns_bounded {M : Type} : Nat → NsMap M → Str → Option (Option M)
  | 0, _, _ => none
  | depth + 1, namespaces, ns =>
    match find_char '.' ns with
    | none =>
      match namespaces.find ns with
      | none => some none
      | some it => some (some it.members)
    | some dot_pos =>
      match namespaces.find (ns.take dot_pos) with
      | none => some none
      | some it => find_ns_bounded depth it.sub_namespaces (ns.drop (dot_pos + 1))

/-- The keys of a map, in the order of its entries. -/
def NsMap.keys {M : Type} : NsMap M → List Str
  | .nil => []
  | .cons k _ _ rest => k :: rest.keys

/-- The invariant of `std::map`: at every level of the tree the keys of the
entries are strictly increasing. -/
def NsMap.ordered {M : Type} : NsMap M → Bool
  | .nil => true
  | .cons k sub _ rest =>
    sub.ordered && rest.keys.all (fun k2 => decide (k < k2)) && rest.ordered

/-- The child of a node stored under a key equal to `s`, character by
character, found by going through the entries one after the other. -/
def NsMap.child {M : Type} : NsMap M → Str → Option (winrt_ns M)
  | .nil, _ => none
  | .cons k sub mem rest, s => if k = s then some ⟨sub, mem⟩ else rest.child s

/-- The walk of section 4.1: from the current node one segment at a time; a
segment missing among the children of the current node is `NotFound`,
otherwise the result is the member set of the node reached by the last
segment. -/
def spec_walk {M : Type} : List Str → NsMap M → Option M
  | [], _ => none
  | [s], current => (current.child s).map winrt_ns.members
  | s :: s2 :: rest, current =>
    match current.child s with
    | none => none
    | some q => spec_walk (s2 :: rest) q.sub_namespaces

/-- The `lookup` of section 4.1: split the path on the separator and walk the
tree from the root along the segments. -/
def spec_lookup {M : Type} (index : NsMap M) (path : Str) : Option M :=
  spec_walk (path.splitOn '.') index

/-- Every node of the tree with its path from the root, the sequence of the
keys that lead to it, and its members; a node comes before its children and
these before its later siblings. -/
def NsMap.nodes {M : Type} : NsMap M → List (List Str × M)
  | .nil => []
  | .cons k sub mem rest =>
    ([k], mem) :: (sub.nodes.map fun n => (k :: n.1, n.2)) ++ rest.nodes

/-- The paths of the nodes of the tree, one for every node. -/
def NsMap.paths {M : Type} (m : NsMap M) : List (List Str) :=
  m.nodes.map Prod.fst

/-- The full dotted path of a node: the keys that lead to it, joined with dots. -/
def dotted_name (segs : List Str) : Str :=
  List.intercalate ['.'] segs

/-- The path `q` differs from the path `p` by letter case only. -/
def differs_by_case (q p : Str) : Prop :=
  q ≠ p ∧ q.map Char.toLower = p.map Char.toLower

/-- The path `q` is the path `p` with one of its segments missing. -/
def has_missing_segment (q p : Str) : Prop :=
  ∃ i, i < (get_dotted_name_segments p).length ∧
    get_dotted_name_segments q = (get_dotted_name_segments p).eraseIdx i

/-- The path `q` is the path `p` with one segment more. -/
def has_extra_segment (q p : Str) : Prop :=
  has_missing_segment p q

/-! ## The signature analyser -/

/-- The type descriptors of libffi that `ffi.h` declares as global objects
(`ffi_type_void`, ..., `ffi_type_pointer`); an `ffi_type const*` is the
address of one of them, so it is identified with the object it points to. -/
inductive ffi_type where
  | void | uint8 | sint8 | uint16 | sint16 | uint32 | sint32 | uint64 | sint64
  | float | double | pointer
  deriving DecidableEq, Repr

/-- The address `&ffi_type_pointer`. -/
def ffi_type_pointer : ffi_type := .pointer

/-- The address `&ffi_type_sint32`. -/
def ffi_type_sint32 : ffi_type := .sint32

/-- Modelled from the spec: the metadata reader's `TypeSig` is not among the
sources; of a type signature the analyser reads only the "flags indicating
array-ness" (section 6), the result of `is_szarray()`. -/
structure TypeSig where
  is_szarray : Bool
  deriving DecidableEq

/-- Modelled from the spec: the metadata reader's `RetTypeSig` is not among the
sources; a signature has an "optional return type" (section 6). Its conversion
to `bool` tells whether a return value is declared, and `Type()` is that type. -/
structure RetTypeSig where
  type : Option TypeSig
  deriving DecidableEq

/-- Modelled from the spec: `method_signature` is declared in `helpers.h`, which
is not among the sources; a signature is a "parameter list, optional return
type" (section 6). `P` is the type of a formal parameter. -/
structure method_signature (P : Type) where
  params : List P
  return_signature : RetTypeSig

/-- The call `signature.has_params()`. -/
def method_signature.has_params {P : Type} (signature : method_signature P) : Bool :=
  !signature.params.isEmpty

/-- The call `xlang::throw_invalid(message)`: the exception, represented by its message. -/
def throw_invalid {α : Type} (message : String) : Except String α :=
  .error message

/-- The function `get_arg_types`, on the signature of the method. -/
def get_arg_types {P : Type} (signature : method_signature P) :
    Except String (List ffi_type) :=
  let arg_types : List ffi_type := []
  -- explicit this pointer
  let arg_types := arg_types ++ [ffi_type_pointer]
  if signature.has_params then throw_invalid "not implemented"
  else
    match signature.return_signature.type with
    | some type =>
      if type.is_szarray then throw_invalid "not implemented"
      else
        -- return values are always pointers
        .ok (arg_types ++ [ffi_type_pointer])
    | none => .ok arg_types

/-- The function `get_method_ffi_types`, on the signature of the method. -/
def get_method_ffi_types {P : Type} (signature : method_signature P) :
    Except String (List ffi_type) :=
  let arg_types : List ffi_type := [ffi_type_pointer]
  if signature.has_params then throw_invalid "not implemented"
  else
    match signature.return_signature.type with
    | some type =>
      if type.is_szarray then throw_invalid "not implemented"
      else .ok (arg_types ++ [ffi_type_pointer])
    | none => .ok arg_types

/-! ## The descriptor cache -/

/-- The calling conventions of libffi (`ffi_abi`); `FFI_FIRST_ABI` is the value 0. -/
inductive ffi_abi where
  | FFI_FIRST_ABI | FFI_SYSV | FFI_STDCALL | FFI_THISCALL | FFI_FASTCALL | FFI_MS_CDECL
  deriving DecidableEq, Repr

/-- The status codes of libffi (`ffi_status`). -/
inductive ffi_status where
  | FFI_OK | FFI_BAD_TYPEDEF | FFI_BAD_ABI
  deriving DecidableEq, Repr

/-- The struct `ffi_cif` of libffi: the convention, the number of arguments, the
array `arg_types` points to (empty for a null pointer) and the return type
(`none` for a null pointer). -/
structure ffi_cif where
  abi : ffi_abi
  nargs : Nat
  arg_types : List ffi_type
  rtype : Option ffi_type
  deriving DecidableEq

/-- A value-initialised `ffi_cif{}`. -/
def ffi_cif.zero : ffi_cif :=
  ⟨.FFI_FIRST_ABI, 0, [], none⟩

/-- The routine `ffi_prep_cif` of libffi: it records its arguments in the
descriptor and returns a status; which shapes libffi rejects is left to
`accepts`, a parameter of the model. -/
def ffi_prep_cif (accepts : ffi_abi → Nat → ffi_type → List ffi_type → ffi_status)
    (_cif : ffi_cif) (abi : ffi_abi) (nargs : Nat) (rtype : ffi_type)
    (atypes : List ffi_type) : ffi_status × ffi_cif :=
  (accepts abi nargs rtype atypes, ⟨abi, nargs, atypes, some rtype⟩)

/-- The specialisation `std::hash<std::vector<ffi_type const*>>`, on `bits`-bit
`std::size_t`; `hasher` is `std::hash<ffi_type const*>`. -/
def vector_hash (bits : Nat) (hasher : ffi_type → Nat) (vec : List ffi_type) : Nat :=
  vec.foldl
    (fun seed t =>
      (seed ^^^ ((hasher t + 0x9e3779b9 + (seed <<< 6) % 2 ^ bits + (seed >>> 2)) % 2 ^ bits))
        % 2 ^ bits)
    (vec.length % 2 ^ bits)

/-- An element of `cif_cache`: the key and the pair stored under it. -/
structure cif_entry where
  key : List ffi_type
  first : ffi_cif
  second : List ffi_type
  deriving DecidableEq

/-- The global `cif_cache` together with a count of the calls of `ffi_prep_cif`
made so far. The elements of the `std::unordered_map` are listed in the order
of their insertion; an element never moves, so its position stands for its
address. -/
structure cif_state where
  cif_cache : List cif_entry
  prep_calls : Nat
  deriving DecidableEq

/-- The parameters of libffi and of the platform that the cache depends on. -/
structure ffi_env where
  bits : Nat
  hasher : ffi_type → Nat
  accepts : ffi_abi → Nat → ffi_type → List ffi_type → ffi_status

/-- The call `cif_cache.find(arg_types)`: the position of the element whose key
has the hash of `arg_types` and is equal to it, `none` for `end()`. -/
def cif_cache_find (env : ffi_env) (cache : List cif_entry) (arg_types : List ffi_type) :
    Option Nat :=
  cache.findIdx? fun e =>
    vector_hash env.bits env.hasher e.key == vector_hash env.bits env.hasher arg_types
      && e.key == arg_types

/-- The call `cif_cache.emplace(arg_types, pair)`: nothing happens when the key
is present, otherwise a new element is added. -/
def cif_cache_emplace (env : ffi_env) (cache : List cif_entry) (arg_types : List ffi_type)
    (pair : ffi_cif × List ffi_type) : List cif_entry :=
  match cif_cache_find env cache arg_types with
  | some _ => cache
  | none => cache ++ [⟨arg_types, pair.1, pair.2⟩]

/-- The function `get_cif`: the address of the cached descriptor (the position
of its element in the cache), or the exception thrown, and the state it
leaves. -/
def get_cif (env : ffi_env) (st : cif_state) (arg_types : List ffi_type) :
    Except String Nat × cif_state :=
  match cif_cache_find env st.cif_cache arg_types with
  | some i =>
    -- return &(cif_cache.at(arg_types).first)
    (.ok i, st)
  | none =>
    -- Make a copy of arg_types for cached ffi_cif struct to point to
    let arg_types_copy := arg_types
    let pair : ffi_cif × List ffi_type := (ffi_cif.zero, arg_types_copy)
    let prepared :=
      ffi_prep_cif env.accepts pair.1 .FFI_STDCALL pair.2.length ffi_type_sint32 pair.2
    let st1 : cif_state := ⟨st.cif_cache, st.prep_calls + 1⟩
    if prepared.1 ≠ .FFI_OK then (throw_invalid "ffi_prep_cif failure", st1)
    else
      let cache := cif_cache_emplace env st.cif_cache arg_types (prepared.2, pair.2)
      match cif_cache_find env cache arg_types with
      | some i => (.ok i, ⟨cache, st1.prep_calls⟩)
      | none => (.error "out_of_range", ⟨cache, st1.prep_calls⟩)

/-- The state of the cache after the calls `get_cif(arg_types)` for the given
requests, in order, from the empty cache on; a call that throws leaves the
state it has reached to the next call. -/
def cif_state_after (env : ffi_env) (requests : List (List ffi_type)) : cif_state :=
  requests.foldl (fun st arg_types => (get_cif env st arg_types).2) ⟨[], 0⟩

/-! ## The dispatch invoker -/

/-- Memory: the machine word stored at each address; addresses count machine words. -/
abbrev Memory := Int → Int

/-- A native function: from the values of its arguments and the memory to its
native return value and the memory it leaves. -/
abbrev native_fn := List Int → Memory → Int × Memory

/-- What `invoke` runs against: the memory and the functions that addresses
hold (`none`: the address is not the entry point of a function). -/
structure native_world where
  memory : Memory
  code : Int → Option native_fn

/-- The pointers `invoke` puts into `args`: the address `&vtable` of its local
variable, or the address `&p` of the element `p` of `parameters` at a given
index. -/
inductive arg_address where
  | vtable : arg_address
  | parameter (index : Nat) : arg_address
  deriving DecidableEq, Repr

/-- The objects those pointers refer to: the value of the local `vtable` and the
elements of `parameters`. -/
structure invoke_frame where
  vtable : Int
  parameters : List Int

/-- Reading through such a pointer; `none` past the end of `parameters`. -/
def invoke_frame.load (frame : invoke_frame) : arg_address → Option Int
  | .vtable => some frame.vtable
  | .parameter i => frame.parameters.get? i

/-- The loop `for (auto&& p : parameters) args.push_back(&p)`, from the element
at `index` on. -/
def push_parameters : Nat → List Int → List arg_address → List arg_address
  | _, [], args => args
  | index, _ :: more, args => push_parameters (index + 1) more (args ++ [.parameter index])

/-- The vector `args` that `invoke` builds. -/
def invoke_args (parameters : List Int) : List arg_address :=
  let args : List arg_address := []
  let args := args ++ [.vtable]
  push_parameters 0 parameters args

/-- The expression `(*((void***)vtable))[offset]`: the word at `offset` in the
table that the first word of the component points to. -/
def entry_point (memory : Memory) (vtable : Int) (offset : Int) : Int :=
  memory (memory vtable + offset)

/-- A value stored into the 32-bit signed `hr`. -/
def to_sint32 (v : Int) : Int :=
  (v + 2 ^ 31) % 2 ^ 32 - 2 ^ 31

/-- Reading through each pointer of a list, in order; `none` when one cannot be read. -/
def invoke_frame.load_all (frame : invoke_frame) : List arg_address → Option (List Int)
  | [] => some []
  | a :: more =>
    match frame.load a, frame.load_all more with
    | some v, some vs => some (v :: vs)
    | _, _ => none

/-- The routine `ffi_call` of libffi: it reads `cif.nargs` argument values
through the pointers of `avalue`, calls the function at `fn` with them and
hands back its return value with the memory it leaves. `none` when `avalue`
holds fewer pointers than that, when one of them cannot be read, or when `fn`
is not a function. -/
def ffi_call (world : native_world) (frame : invoke_frame) (cif : ffi_cif) (fn : Int)
    (avalue : List arg_address) : Option (Int × Memory) :=
  if avalue.length < cif.nargs then none
  else
    match frame.load_all (avalue.take cif.nargs), world.code fn with
    | some values, some f => some (f values world.memory)
    | _, _ => none

/-- Modelled from the spec: `winrt::check_hresult` is declared in the C++/WinRT
base header, which is not among the sources; by section 6 "zero means
success, any nonzero value is an opaque failure code", and by section 4.4 a
failure is `StatusError(code)`, represented by its code. -/
def check_hresult (hr : Int) : Except Int Unit :=
  if hr = 0 then .ok () else .error hr

/-- The function `invoke`, with `check` for `winrt::check_hresult`; `instance_abi`
is `winrt::get_abi(instance)`. The result is what `invoke` does (returns, or
throws a status) and the memory the callee leaves; `none` when the indirect
call has no defined behaviour. -/
def invoke (check : Int → Except Int Unit) (world : native_world) (cif : ffi_cif)
    (instance_abi : Int) (offset : Int) (parameters : List Int) :
    Option (Except Int Unit × Memory) :=
  let vtable := instance_abi
  let frame : invoke_frame := ⟨vtable, parameters⟩
  let args := invoke_args parameters
  match ffi_call world frame cif (entry_point world.memory vtable offset) args with
  | none => none
  | some (ret, memory) =>
    let hr := to_sint32 ret
    some (check hr, memory)

/-- A stub for a dispatch table: it writes `sentinel` into the location its
second argument names and returns the status `status`. -/
def sentinel_stub (sentinel : Int) (status : Int) : native_fn :=
  fun values memory =>
    match values.get? 1 with
    | some out => (status, Function.update memory out sentinel)
    | none => (status, memory)

/-! ## Theorems: the namespace tree -/

theorem NsMap.find_alter_same {M : Type} [Inhabited M] (f : winrt_ns M → winrt_ns M)
    (m : NsMap M) (s : Str) :
    (m.alter f s).find s = some (f ((m.find s).getD winrt_ns.empty)) := by
  induction m with
  | nil => simp [NsMap.alter, NsMap.find, NsMap.entry]
  | cons k sub mem rest _ ih =>
    simp only [NsMap.alter, NsMap.find]
    by_cases h1 : s = k
    · simp [h1, NsMap.find, NsMap.entry]
    · by_cases h2 : s < k
      · simp [h1, h2, NsMap.find, NsMap.entry]
      · simp [h1, h2, NsMap.find, ih]

theorem NsMap.find_alter_other {M : Type} [Inhabited M] (f : winrt_ns M → winrt_ns M)
    (m : NsMap M) (s t : Str) (hne : t ≠ s) :
    (m.alter f s).find t = m.find t := by
  induction m with
  | nil =>
    simp only [NsMap.alter, NsMap.find, NsMap.entry, hne, if_false]
    split <;> rfl
  | cons k sub mem rest _ ih =>
    simp only [NsMap.alter, NsMap.find]
    by_cases h1 : s = k
    · subst h1; simp [NsMap.find, NsMap.entry, hne]
    · by_cases h2 : s < k
      · simp only [h1, h2, if_true, if_false, NsMap.find, NsMap.entry, hne]
        by_cases h3 : t < s
        · have h4 : t < k := lt_trans h3 h2
          have h5 : t ≠ k := ne_of_lt h4
          simp [h3, h4, h5]
        · simp [h3]
      · simp [h1, h2, NsMap.find, ih]

theorem node_at_nil {M : Type} (segs : List Str) :
    node_at segs (NsMap.nil : NsMap M) = none := by
  cases segs with
  | nil => rfl
  | cons s rest => cases rest <;> simp [node_at, NsMap.find]

theorem members_at_nil {M : Type} (segs : List Str) :
    members_at segs (NsMap.nil : NsMap M) = none := by
  simp [members_at, node_at_nil]

theorem members_at_single {M : Type} (s : Str) (m : NsMap M) :
    members_at [s] m = (m.find s).map winrt_ns.members := rfl

theorem members_at_cons_cons {M : Type} [Inhabited M] (s t : Str) (qs : List Str)
    (m : NsMap M) :
    members_at (s :: t :: qs) m
      = members_at (t :: qs) ((m.find s).getD winrt_ns.empty).sub_namespaces := by
  simp only [members_at, node_at]
  cases h : m.find s with
  | none => simp [winrt_ns.empty, node_at_nil]
  | some q => simp

/-- Following segments that start with another key than the one `operator[]`
was applied to sees the map as it was. -/
theorem members_at_alter_other {M : Type} [Inhabited M] (f : winrt_ns M → winrt_ns M)
    (m : NsMap M) (s t : Str) (qs : List Str) (hne : t ≠ s) :
    members_at (t :: qs) (m.alter f s) = members_at (t :: qs) m := by
  cases qs with
  | nil => simp [members_at_single, NsMap.find_alter_other f m s t hne]
  | cons t2 qs => simp [members_at_cons_cons, NsMap.find_alter_other f m s t hne]

/-- What a lookup by segments sees after the segments `s, rest` were walked
and `members` stored at their end. -/
theorem members_at_walk_segments {M : Type} [Inhabited M] (members : M) (rest : List Str) :
    ∀ (s t : Str) (qs : List Str) (m : NsMap M),
      members_at (t :: qs) (walk_segments members s rest m)
        = if t :: qs = s :: rest then some members
          else if t :: qs <+: s :: rest then some ((members_at (t :: qs) m).getD default)
          else members_at (t :: qs) m := by
  induction rest with
  | nil =>
    intro s t qs m
    by_cases hts : t = s
    · subst hts
      cases qs with
      | nil => simp [walk_segments, members_at_single, NsMap.find_alter_same]
      | cons t2 qs =>
        have hp : ¬ (t :: t2 :: qs <+: [t]) := by
          intro h
          have := h.length_le
          simp at this
        simp [walk_segments, members_at_cons_cons, NsMap.find_alter_same, hp]
    · have hp : ¬ (t :: qs <+: [s]) := by
        intro h
        have := List.cons_prefix_cons.mp h
        exact hts this.1
      simp [walk_segments, members_at_alter_other _ _ _ _ _ hts, hts, hp]
  | cons s2 rest ih =>
    intro s t qs m
    by_cases hts : t = s
    · subst hts
      cases qs with
      | nil =>
        have hp : [t] <+: t :: s2 :: rest := by
          simp [List.cons_prefix_cons]
        simp only [walk_segments, members_at_single, NsMap.find_alter_same, hp]
        cases h : m.find t <;> simp [winrt_ns.empty]
      | cons t2 qs =>
        simp only [walk_segments, members_at_cons_cons, NsMap.find_alter_same]
        rw [Option.getD_some, ih]
        simp [List.cons_prefix_cons]
    · have hp : ¬ (t :: qs <+: s :: s2 :: rest) := by
        intro h
        have := List.cons_prefix_cons.mp h
        exact hts this.1
      simp [walk_segments, members_at_alter_other _ _ _ _ _ hts, hts, hp]

theorem get_dotted_name_segments_ne_nil (ns : Str) : get_dotted_name_segments ns ≠ [] := by
  cases ns with
  | nil => simp [get_dotted_name_segments]
  | cons c cs =>
    simp only [get_dotted_name_segments]
    split
    · simp
    · split <;> simp

theorem get_dotted_name_segments_no_dot (ns : Str) (h : find_char '.' ns = none) :
    get_dotted_name_segments ns = [ns] := by
  induction ns with
  | nil => rfl
  | cons c cs ih =>
    simp only [find_char] at h
    split at h
    · simp at h
    · rename_i hc
      simp only [Option.map_eq_none'] at h
      simp [get_dotted_name_segments, hc, ih h]

theorem get_dotted_name_segments_dot (ns : Str) (d : Nat) (h : find_char '.' ns = some d) :
    get_dotted_name_segments ns
      = ns.take d :: get_dotted_name_segments (ns.drop (d + 1)) := by
  induction ns generalizing d with
  | nil => simp [find_char] at h
  | cons c cs ih =>
    simp only [find_char] at h
    split at h
    · rename_i hc
      simp only [Option.some.injEq] at h
      subst h
      simp [get_dotted_name_segments, hc]
    · rename_i hc
      cases hh : find_char '.' cs with
      | none => simp [hh] at h
      | some e =>
        simp only [hh, Option.map_some', Option.some.injEq] at h
        subst h
        simp [get_dotted_name_segments, hc, ih e hh]

theorem members_at_cons_of_ne_nil {M : Type} (s : Str) (segs : List Str) (m : NsMap M)
    (h : segs ≠ []) :
    members_at (s :: segs) m
      = match m.find s with
        | none => none
        | some q => members_at segs q.sub_namespaces := by
  cases segs with
  | nil => exact absurd rfl h
  | cons t qs =>
    simp only [members_at, node_at]
    cases m.find s <;> rfl

/-- The recursion of `find_ns` on the text of the path is the walk along its segments. -/
theorem find_ns_rec_eq_members_at {M : Type} (fuel : Nat) :
    ∀ (namespaces : NsMap M) (ns : Str) (h : ns.length < fuel),
      find_ns_rec fuel namespaces ns h
        = members_at (get_dotted_name_segments ns) namespaces := by
  induction fuel with
  | zero => intro _ ns h; exact absurd h (Nat.not_lt_zero _)
  | succ fuel ih =>
    intro namespaces ns h
    unfold find_ns_rec
    split
    · rename_i hd
      rw [get_dotted_name_segments_no_dot ns hd, members_at_single]
      cases namespaces.find ns <;> rfl
    · rename_i dot_pos hd
      rw [get_dotted_name_segments_dot ns dot_pos hd,
        members_at_cons_of_ne_nil _ _ _ (get_dotted_name_segments_ne_nil _)]
      cases namespaces.find (List.take dot_pos ns) with
      | none => rfl
      | some it => exact ih _ _ _

theorem find_ns_eq_members_at {M : Type} (namespaces : NsMap M) (ns : Str) :
    find_ns namespaces ns = members_at (get_dotted_name_segments ns) namespaces :=
  find_ns_rec_eq_members_at _ _ _ _

/-- Joining the segments of a path with dots gives the path back. -/
theorem intercalate_get_dotted_name_segments (ns : Str) :
    List.intercalate ['.'] (get_dotted_name_segments ns) = ns := by
  induction ns with
  | nil => rfl
  | cons c cs ih =>
    simp only [get_dotted_name_segments]
    split
    · rename_i hc
      have hne := get_dotted_name_segments_ne_nil cs
      cases hs : get_dotted_name_segments cs with
      | nil => exact absurd hs hne
      | cons s ss =>
        rw [hs] at ih
        simp only [List.intercalate, List.intersperse, List.flatten] at ih ⊢
        simp [hc, ih]
    · cases hs : get_dotted_name_segments cs with
      | nil => exact absurd hs (get_dotted_name_segments_ne_nil cs)
      | cons s ss =>
        rw [hs] at ih
        cases ss with
        | nil =>
          simp only [List.intercalate, List.intersperse, List.flatten] at ih ⊢
          simpa using ih
        | cons s2 ss =>
          simp only [List.intercalate, List.intersperse, List.flatten] at ih ⊢
          simpa using ih

theorem get_dotted_name_segments_injective :
    Function.Injective get_dotted_name_segments := by
  intro a b h
  rw [← intercalate_get_dotted_name_segments a, ← intercalate_get_dotted_name_segments b, h]

/-- One iteration of the outer loop always has a first segment to walk. -/
theorem store_namespace_get_dotted_name_segments {M : Type} [Inhabited M] (members : M)
    (ns : Str) (root : NsMap M) :
    ∃ s rest, get_dotted_name_segments ns = s :: rest ∧
      store_namespace members (get_dotted_name_segments ns) root
        = some (walk_segments members s rest root) := by
  cases h : get_dotted_name_segments ns with
  | nil => exact absurd h (get_dotted_name_segments_ne_nil ns)
  | cons s rest => exact ⟨s, rest, rfl, rfl⟩

/-- The outer loop of `get_namespace_map` runs to its end. -/
theorem get_namespace_map_loop_returns {M : Type} [Inhabited M] (c : List (Str × M)) :
    ∀ root : NsMap M, ∃ tree, get_namespace_map_loop c root = some tree := by
  induction c with
  | nil => intro root; exact ⟨root, rfl⟩
  | cons pm more ih =>
    intro root
    obtain ⟨s, rest, _, h2⟩ := store_namespace_get_dotted_name_segments pm.2 pm.1 root
    obtain ⟨tree, ht⟩ := ih (walk_segments pm.2 s rest root)
    exact ⟨tree, by simp only [get_namespace_map_loop, h2, ht]⟩

/-- Members found along segments that are not those of a path still to be
stored are found, unchanged, after the loop. -/
theorem get_namespace_map_loop_keeps {M : Type} [Inhabited M] (c : List (Str × M))
    (t : Str) (qs : List Str) (x : M) :
    ∀ (root tree : NsMap M), get_namespace_map_loop c root = some tree →
      (∀ pm ∈ c, get_dotted_name_segments pm.1 ≠ t :: qs) →
      members_at (t :: qs) root = some x → members_at (t :: qs) tree = some x := by
  induction c with
  | nil =>
    intro root tree h _ hx
    simp only [get_namespace_map_loop, Option.some.injEq] at h
    subst h; exact hx
  | cons pm more ih =>
    intro root tree h hne hx
    obtain ⟨s, rest, h1, h2⟩ := store_namespace_get_dotted_name_segments pm.2 pm.1 root
    simp only [get_namespace_map_loop, h2] at h
    refine ih _ tree h (fun pm2 hm => hne pm2 (List.mem_cons_of_mem _ hm)) ?_
    have hq : t :: qs ≠ s :: rest := by
      have := hne pm (List.mem_cons_self _ _)
      rw [h1] at this
      exact fun e => this e.symm
    rw [members_at_walk_segments, if_neg hq, hx]
    split <;> rfl

/-- After the loop every stored path leads to the members stored for it. -/
theorem get_namespace_map_loop_stored {M : Type} [Inhabited M] (c : List (Str × M)) :
    ∀ (root tree : NsMap M), get_namespace_map_loop c root = some tree →
      (c.map Prod.fst).Nodup →
      ∀ pm ∈ c, members_at (get_dotted_name_segments pm.1) tree = some pm.2 := by
  induction c with
  | nil => intro _ _ _ _ pm hm; cases hm
  | cons hd more ih =>
    intro root tree h hnd pm hm
    obtain ⟨s, rest, h1, h2⟩ := store_namespace_get_dotted_name_segments hd.2 hd.1 root
    simp only [get_namespace_map_loop, h2] at h
    simp only [List.map_cons, List.nodup_cons] at hnd
    rcases List.mem_cons.mp hm with heq | hin
    · subst heq
      rw [h1]
      refine get_namespace_map_loop_keeps more s rest pm.2 _ tree h ?_ ?_
      · intro pm2 hm2 he
        rw [← h1] at he
        have := get_dotted_name_segments_injective he
        exact hnd.1 (this ▸ List.mem_map_of_mem Prod.fst hm2)
      · rw [members_at_walk_segments, if_pos rfl]
    · exact ih _ tree h hnd.2 pm hin

/-- A lookup by segments succeeds after the loop exactly when it succeeded
before it or the segments begin the segments of a stored path. -/
theorem get_namespace_map_loop_isSome {M : Type} [Inhabited M] (c : List (Str × M))
    (t : Str) (qs : List Str) :
    ∀ (root tree : NsMap M), get_namespace_map_loop c root = some tree →
      ((members_at (t :: qs) tree).isSome ↔
        ((members_at (t :: qs) root).isSome ∨
          ∃ pm ∈ c, t :: qs <+: get_dotted_name_segments pm.1)) := by
  induction c with
  | nil =>
    intro root tree h
    simp only [get_namespace_map_loop, Option.some.injEq] at h
    subst h; simp
  | cons hd more ih =>
    intro root tree h
    obtain ⟨s, rest, h1, h2⟩ := store_namespace_get_dotted_name_segments hd.2 hd.1 root
    simp only [get_namespace_map_loop, h2] at h
    rw [ih _ tree h, members_at_walk_segments]
    simp only [List.mem_cons, exists_eq_or_imp, h1]
    by_cases he : t :: qs = s :: rest
    · simp [he]
    · by_cases hp : t :: qs <+: s :: rest
      · simp [he, hp]
      · simp [he, hp]

/-- C1: for pairwise distinct dotted paths, `get_namespace_map` returns a tree in
which every inserted pair `(p, m)` is found: `find_ns tree p` is non-null and
points to `m`, and `get_ns tree p` returns `m`. (Every path splits into at
least one segment, so the walk always reaches a node to store into.) -/
theorem C1_inserted_paths_resolve {M : Type} [Inhabited M] (c : List (Str × M))
    (hdistinct : (c.map Prod.fst).Nodup) :
    ∃ tree, get_namespace_map c = some tree ∧
      ∀ pm ∈ c, find_ns tree pm.1 = some pm.2 ∧ get_ns tree pm.1 = .ok pm.2 := by
  obtain ⟨tree, ht⟩ := get_namespace_map_loop_returns c (NsMap.nil : NsMap M)
  refine ⟨tree, ht, fun pm hm => ?_⟩
  have h := get_namespace_map_loop_stored c _ tree ht hdistinct pm hm
  rw [← find_ns_eq_members_at] at h
  exact ⟨h, by simp only [get_ns, h]⟩

/-- C1 at the paths "A.B.C", "A.B.D" and "A" with members 1, 2 and 3. -/
theorem C1_inserted_paths_resolve_witness :
    (([("A.B.C".toList, 1), ("A.B.D".toList, 2), ("A".toList, 3)] : List (Str × Nat)).map
        Prod.fst).Nodup ∧
      ∃ tree,
        get_namespace_map
            ([("A.B.C".toList, 1), ("A.B.D".toList, 2), ("A".toList, 3)] : List (Str × Nat))
          = some tree ∧
        ∀ pm ∈ ([("A.B.C".toList, 1), ("A.B.D".toList, 2), ("A".toList, 3)] : List (Str × Nat)),
          find_ns tree pm.1 = some pm.2 ∧ get_ns tree pm.1 = .ok pm.2 :=
  ⟨by decide, C1_inserted_paths_resolve _ (by decide)⟩

/-- C2 fails as stated: with only "A.B.C" inserted, the query "A.B" is not an
inserted path and is "A.B.C" with one segment missing, yet `find_ns` returns a
non-null pointer (to the members of the intermediate node). -/
theorem C2_counterexample :
    ¬ (∀ (c : List (Str × Nat)) (q : Str) (tree : NsMap Nat),
        get_namespace_map c = some tree →
        q ∉ c.map Prod.fst →
        (∃ p ∈ c.map Prod.fst,
          differs_by_case q p ∨ has_extra_segment q p ∨ has_missing_segment q p) →
        find_ns tree q = none) := by
  intro h
  have hq : "A.B".toList ∉ ([("A.B.C".toList, 7)] : List (Str × Nat)).map Prod.fst := by decide
  have hmiss : has_missing_segment "A.B".toList "A.B.C".toList := ⟨2, by decide, by decide⟩
  have := h [("A.B.C".toList, 7)] "A.B".toList
    (walk_segments 7 "A".toList ["B".toList, "C".toList] .nil) (by decide) hq
    ⟨"A.B.C".toList, by decide, Or.inr (Or.inr hmiss)⟩
  revert this
  decide

/-- C2, amended: in the tree built by `get_namespace_map`, `find_ns` returns
`nullptr` for a query path exactly when the segments of the query are not an
initial part of the segments of any inserted path; a query whose segments
begin those of an inserted path is found even when it was not inserted. -/
theorem C2_not_found_iff {M : Type} [Inhabited M] (c : List (Str × M)) :
    ∃ tree, get_namespace_map c = some tree ∧
      ∀ q : Str, find_ns tree q = none ↔
        ∀ p ∈ c.map Prod.fst,
          ¬ (get_dotted_name_segments q <+: get_dotted_name_segments p) := by
  obtain ⟨tree, ht⟩ := get_namespace_map_loop_returns c (NsMap.nil : NsMap M)
  refine ⟨tree, ht, fun q => ?_⟩
  rw [find_ns_eq_members_at]
  cases hs : get_dotted_name_segments q with
  | nil => exact absurd hs (get_dotted_name_segments_ne_nil q)
  | cons t qs =>
    have h := get_namespace_map_loop_isSome c t qs _ tree ht
    rw [members_at_nil] at h
    simp only [Option.isSome_none, Bool.false_eq_true, false_or] at h
    rw [← Option.not_isSome_iff_eq_none, h]
    simp

/-- C3: `get_ns` throws exactly when `find_ns` returns `nullptr`; the exception
then carries the path `p` itself, and otherwise `get_ns` returns the members
`find_ns` points to. -/
theorem C3_get_ns_iff_find_ns {M : Type} (tree : NsMap M) (p : Str) :
    ((∃ e, get_ns tree p = .error e) ↔ find_ns tree p = none) ∧
      (find_ns tree p = none → get_ns tree p = .error p) ∧
      (∀ m, find_ns tree p = some m → get_ns tree p = .ok m) := by
  unfold get_ns
  cases find_ns tree p with
  | none => simp
  | some m => simp

/-! ## Theorems: the signature analyser -/

/-- C4: for a signature with no parameters, `get_method_ffi_types` returns a
shape of length 1 when no return value is declared and a shape of length 2
when a non-array return value is declared; every slot is `ffi_type_pointer`. -/
theorem C4_shape_without_parameters {P : Type} (signature : method_signature P)
    (hparams : signature.params = []) :
    (signature.return_signature.type = none →
      ∃ shape, get_method_ffi_types signature = .ok shape ∧ shape.length = 1 ∧
        ∀ t ∈ shape, t = ffi_type_pointer) ∧
    (∀ type, signature.return_signature.type = some type → type.is_szarray = false →
      ∃ shape, get_method_ffi_types signature = .ok shape ∧ shape.length = 2 ∧
        ∀ t ∈ shape, t = ffi_type_pointer) := by
  constructor
  · intro hnone
    refine ⟨[ffi_type_pointer], ?_, rfl, by simp⟩
    simp [get_method_ffi_types, method_signature.has_params, hparams, hnone]
  · intro type hsome harr
    refine ⟨[ffi_type_pointer, ffi_type_pointer], ?_, rfl, by simp⟩
    simp [get_method_ffi_types, method_signature.has_params, hparams, hsome, harr]

/-- C4 at the signature with no parameters and a return value that is not an array. -/
theorem C4_shape_without_parameters_witness :
    (([] : List Unit) = []) ∧
      ((RetTypeSig.mk (some ⟨false⟩)).type = none →
        ∃ shape, get_method_ffi_types (⟨([] : List Unit), ⟨some ⟨false⟩⟩⟩) = .ok shape ∧
          shape.length = 1 ∧ ∀ t ∈ shape, t = ffi_type_pointer) ∧
      (∀ type, (RetTypeSig.mk (some ⟨false⟩)).type = some type → type.is_szarray = false →
        ∃ shape, get_method_ffi_types (⟨([] : List Unit), ⟨some ⟨false⟩⟩⟩) = .ok shape ∧
          shape.length = 2 ∧ ∀ t ∈ shape, t = ffi_type_pointer) :=
  ⟨rfl, C4_shape_without_parameters (⟨([] : List Unit), ⟨some ⟨false⟩⟩⟩) rfl⟩

/-- C5: `get_method_ffi_types` throws "not implemented" exactly when the
signature has a formal parameter or declares a return value of an array type;
in every other case it returns a shape. -/
theorem C5_unsupported_iff {P : Type} (signature : method_signature P) :
    (get_method_ffi_types signature = .error "not implemented" ↔
      (signature.params ≠ [] ∨
        ∃ type, signature.return_signature.type = some type ∧ type.is_szarray = true)) ∧
    ((∃ shape, get_method_ffi_types signature = .ok shape) ↔
      ¬ (signature.params ≠ [] ∨
        ∃ type, signature.return_signature.type = some type ∧ type.is_szarray = true)) := by
  unfold get_method_ffi_types method_signature.has_params throw_invalid
  cases hp : signature.params with
  | cons a more => simp
  | nil =>
    cases hr : signature.return_signature.type with
    | none => simp
    | some type =>
      cases ha : type.is_szarray <;> simp [ha]

/-! ## Theorems: the descriptor cache -/

/-- An element added at the end of a cache that does not hold its key is found
at the position where it was added. -/
theorem cif_cache_find_append_self (env : ffi_env) (cache : List cif_entry)
    (arg_types : List ffi_type) (first : ffi_cif) (second : List ffi_type)
    (hmiss : cif_cache_find env cache arg_types = none) :
    cif_cache_find env (cache ++ [⟨arg_types, first, second⟩]) arg_types
      = some cache.length := by
  unfold cif_cache_find at hmiss ⊢
  rw [List.findIdx?_append, hmiss]
  simp

/-- What a miss of `get_cif` does when `ffi_prep_cif` accepts the shape. -/
theorem get_cif_miss_ok (env : ffi_env) (st : cif_state) (s : List ffi_type)
    (hmiss : cif_cache_find env st.cif_cache s = none)
    (hok : env.accepts .FFI_STDCALL s.length ffi_type_sint32 s = .FFI_OK) :
    get_cif env st s
      = (.ok st.cif_cache.length,
          ⟨st.cif_cache ++ [⟨s, ⟨.FFI_STDCALL, s.length, s, some ffi_type_sint32⟩, s⟩],
            st.prep_calls + 1⟩) := by
  simp only [get_cif, hmiss, ffi_prep_cif, hok, cif_cache_emplace, ne_eq, not_true_eq_false,
    if_false, cif_cache_find_append_self env _ s _ s hmiss]

/-- What a hit of `get_cif` does. -/
theorem get_cif_hit (env : ffi_env) (st : cif_state) (s : List ffi_type) (i : Nat)
    (hhit : cif_cache_find env st.cif_cache s = some i) :
    get_cif env st s = (.ok i, st) := by
  simp only [get_cif, hhit]

/-- C6: when the cache does not hold the shape `s` and `ffi_prep_cif` accepts it,
`get_cif` called with `s1` and then with `s2`, both element-wise equal to `s`,
returns the address of one and the same cache element both times (the element
with key `s`, unchanged by the second call), and `ffi_prep_cif` is called
exactly once over the two calls. -/
theorem C6_get_cif_twice (env : ffi_env) (st : cif_state) (s s1 s2 : List ffi_type)
    (hs1 : s1 = s) (hs2 : s2 = s)
    (hmiss : cif_cache_find env st.cif_cache s = none)
    (hok : env.accepts .FFI_STDCALL s.length ffi_type_sint32 s = .FFI_OK) :
    ∃ (i : Nat) (e : cif_entry),
      (get_cif env st s1).1 = .ok i ∧
      (get_cif env (get_cif env st s1).2 s2).1 = .ok i ∧
      (get_cif env st s1).2.cif_cache.get? i = some e ∧
      (get_cif env (get_cif env st s1).2 s2).2.cif_cache.get? i = some e ∧
      e.key = s ∧
      (get_cif env (get_cif env st s1).2 s2).2.prep_calls = st.prep_calls + 1 := by
  rw [hs1, hs2]
  have h1 := get_cif_miss_ok env st s hmiss hok
  have hfind := cif_cache_find_append_self env st.cif_cache s
    ⟨.FFI_STDCALL, s.length, s, some ffi_type_sint32⟩ s hmiss
  rw [h1]
  rw [get_cif_hit env _ s st.cif_cache.length hfind]
  exact ⟨st.cif_cache.length, ⟨s, ⟨.FFI_STDCALL, s.length, s, some ffi_type_sint32⟩, s⟩,
    rfl, rfl, by simp, by simp, rfl, rfl⟩

/-- C6 at the empty cache and the shape of two pointer slots, on a platform
whose `ffi_prep_cif` accepts every shape. -/
theorem C6_get_cif_twice_witness :
    ∃ (i : Nat) (e : cif_entry),
      (get_cif ⟨64, fun _ => 0, fun _ _ _ _ => .FFI_OK⟩ ⟨[], 0⟩
          [ffi_type_pointer, ffi_type_pointer]).1 = .ok i ∧
      (get_cif ⟨64, fun _ => 0, fun _ _ _ _ => .FFI_OK⟩
          (get_cif ⟨64, fun _ => 0, fun _ _ _ _ => .FFI_OK⟩ ⟨[], 0⟩
            [ffi_type_pointer, ffi_type_pointer]).2
          [ffi_type_pointer, ffi_type_pointer]).1 = .ok i ∧
      (get_cif ⟨64, fun _ => 0, fun _ _ _ _ => .FFI_OK⟩ ⟨[], 0⟩
          [ffi_type_pointer, ffi_type_pointer]).2.cif_cache.get? i = some e ∧
      (get_cif ⟨64, fun _ => 0, fun _ _ _ _ => .FFI_OK⟩
          (get_cif ⟨64, fun _ => 0, fun _ _ _ _ => .FFI_OK⟩ ⟨[], 0⟩
            [ffi_type_pointer, ffi_type_pointer]).2
          [ffi_type_pointer, ffi_type_pointer]).2.cif_cache.get? i = some e ∧
      e.key = [ffi_type_pointer, ffi_type_pointer] ∧
      (get_cif ⟨64, fun _ => 0, fun _ _ _ _ => .FFI_OK⟩
          (get_cif ⟨64, fun _ => 0, fun _ _ _ _ => .FFI_OK⟩ ⟨[], 0⟩
            [ffi_type_pointer, ffi_type_pointer]).2
          [ffi_type_pointer, ffi_type_pointer]).2.prep_calls = 0 + 1 :=
  C6_get_cif_twice ⟨64, fun _ => 0, fun _ _ _ _ => .FFI_OK⟩ ⟨[], 0⟩
    [ffi_type_pointer, ffi_type_pointer] _ _ rfl rfl (by decide) rfl

/-- C7: when the cache does not hold the shape and `ffi_prep_cif` returns a
status other than `FFI_OK`, `get_cif` throws and leaves the cache as it was. -/
theorem C7_get_cif_failure (env : ffi_env) (st : cif_state) (s : List ffi_type)
    (hmiss : cif_cache_find env st.cif_cache s = none)
    (hbad : env.accepts .FFI_STDCALL s.length ffi_type_sint32 s ≠ .FFI_OK) :
    (get_cif env st s).1 = .error "ffi_prep_cif failure" ∧
      (get_cif env st s).2.cif_cache = st.cif_cache ∧
      cif_cache_find env (get_cif env st s).2.cif_cache s = none := by
  simp only [get_cif, hmiss, ffi_prep_cif, ne_eq, hbad, not_false_eq_true, if_true,
    throw_invalid, and_self]

/-- C7 at a cache holding the one-slot shape and a request for the two-slot
shape, on a platform whose `ffi_prep_cif` rejects every shape. -/
theorem C7_get_cif_failure_witness :
    (get_cif ⟨64, fun _ => 0, fun _ _ _ _ => .FFI_BAD_TYPEDEF⟩
        ⟨[⟨[ffi_type_pointer], ⟨.FFI_STDCALL, 1, [ffi_type_pointer], some ffi_type_sint32⟩,
            [ffi_type_pointer]⟩], 1⟩
        [ffi_type_pointer, ffi_type_pointer]).1 = .error "ffi_prep_cif failure" ∧
      (get_cif ⟨64, fun _ => 0, fun _ _ _ _ => .FFI_BAD_TYPEDEF⟩
        ⟨[⟨[ffi_type_pointer], ⟨.FFI_STDCALL, 1, [ffi_type_pointer], some ffi_type_sint32⟩,
            [ffi_type_pointer]⟩], 1⟩
        [ffi_type_pointer, ffi_type_pointer]).2.cif_cache
        = [⟨[ffi_type_pointer], ⟨.FFI_STDCALL, 1, [ffi_type_pointer], some ffi_type_sint32⟩,
            [ffi_type_pointer]⟩] ∧
      cif_cache_find ⟨64, fun _ => 0, fun _ _ _ _ => .FFI_BAD_TYPEDEF⟩
        (get_cif ⟨64, fun _ => 0, fun _ _ _ _ => .FFI_BAD_TYPEDEF⟩
          ⟨[⟨[ffi_type_pointer], ⟨.FFI_STDCALL, 1, [ffi_type_pointer], some ffi_type_sint32⟩,
              [ffi_type_pointer]⟩], 1⟩
          [ffi_type_pointer, ffi_type_pointer]).2.cif_cache
        [ffi_type_pointer, ffi_type_pointer] = none :=
  C7_get_cif_failure ⟨64, fun _ => 0, fun _ _ _ _ => .FFI_BAD_TYPEDEF⟩
    ⟨[⟨[ffi_type_pointer], ⟨.FFI_STDCALL, 1, [ffi_type_pointer], some ffi_type_sint32⟩,
        [ffi_type_pointer]⟩], 1⟩
    [ffi_type_pointer, ffi_type_pointer] (by decide) (by decide)

/-! ## Theorems: the dispatch invoker -/

theorem push_parameters_eq (more : List Int) :
    ∀ (index : Nat) (args : List arg_address),
      push_parameters index more args
        = args ++ (List.range' index more.length).map arg_address.parameter := by
  induction more with
  | nil => intro index args; simp [push_parameters]
  | cons p more ih =>
    intro index args
    simp [push_parameters, ih, List.range'_succ]

theorem invoke_args_eq (parameters : List Int) :
    invoke_args parameters
      = arg_address.vtable ::
          (List.range' 0 parameters.length).map arg_address.parameter := by
  simp [invoke_args, push_parameters_eq]

theorem load_all_append_single (frame : invoke_frame) (a : arg_address) (v : Int)
    (ha : frame.load a = some v) :
    ∀ (l : List arg_address) (vs : List Int), frame.load_all l = some vs →
      frame.load_all (l ++ [a]) = some (vs ++ [v]) := by
  intro l
  induction l with
  | nil =>
    intro vs h
    simp only [invoke_frame.load_all, Option.some.injEq] at h
    subst h
    simp [invoke_frame.load_all, ha]
  | cons b l ih =>
    intro vs h
    simp only [invoke_frame.load_all, List.cons_append] at h ⊢
    cases hb : frame.load b with
    | none => simp [hb] at h
    | some w =>
      cases hl : frame.load_all l with
      | none => simp [hb, hl] at h
      | some ws =>
        simp only [hb, hl, Option.some.injEq] at h
        subst h
        simp [ih ws hl]

theorem load_all_take (frame : invoke_frame) :
    ∀ (l : List arg_address) (vs : List Int) (n : Nat), frame.load_all l = some vs →
      frame.load_all (l.take n) = some (vs.take n) := by
  intro l
  induction l with
  | nil =>
    intro vs n h
    simp only [invoke_frame.load_all, Option.some.injEq] at h
    subst h
    simp [invoke_frame.load_all]
  | cons b l ih =>
    intro vs n h
    simp only [invoke_frame.load_all] at h
    cases hb : frame.load b with
    | none => simp [hb] at h
    | some w =>
      cases hl : frame.load_all l with
      | none => simp [hb, hl] at h
      | some ws =>
        simp only [hb, hl, Option.some.injEq] at h
        subst h
        cases n with
        | zero => simp [invoke_frame.load_all]
        | succ n => simp [invoke_frame.load_all, hb, ih ws n hl]

/-- The loop over `parameters` keeps the pointers pushed so far readable and
adds, for each further element, a pointer that reads that element. -/
theorem load_all_push_parameters (vtable : Int) (more : List Int) :
    ∀ (index : Nat) (args : List arg_address) (seen vs : List Int),
      seen.length = index →
      invoke_frame.load_all ⟨vtable, seen ++ more⟩ args = some vs →
      invoke_frame.load_all ⟨vtable, seen ++ more⟩ (push_parameters index more args)
        = some (vs ++ more) := by
  induction more with
  | nil => intro index args seen vs _ h; simpa [push_parameters] using h
  | cons p more ih =>
    intro index args seen vs hlen h
    have hload : invoke_frame.load ⟨vtable, seen ++ p :: more⟩ (.parameter index) = some p := by
      subst hlen
      simp only [invoke_frame.load, List.get?_eq_getElem?]
      rw [List.getElem?_append_right (Nat.le_refl _)]
      simp
    have h2 := load_all_append_single _ _ p hload args vs h
    have h3 := ih (index + 1) (args ++ [.parameter index]) (seen ++ [p]) (vs ++ [p])
      (by simp [hlen]) (by simpa using h2)
    simpa [push_parameters] using h3

/-- Reading through the pointers of `args` gives the receiver and then the
elements of `parameters`. -/
theorem load_all_invoke_args (vtable : Int) (parameters : List Int) :
    invoke_frame.load_all ⟨vtable, parameters⟩ (invoke_args parameters)
      = some (vtable :: parameters) := by
  have h := load_all_push_parameters vtable parameters 0 [.vtable] [] [vtable] rfl
    (by simp [invoke_frame.load_all, invoke_frame.load])
  simpa [invoke_args] using h

theorem to_sint32_of_range (c : Int) (hlo : -2 ^ 31 ≤ c) (hhi : c < 2 ^ 31) :
    to_sint32 c = c := by
  unfold to_sint32
  norm_num at hlo hhi ⊢
  omega

/-- What `invoke` does once the entry point is a function and the descriptor
asks for no more arguments than `args` holds. -/
theorem invoke_eq (check : Int → Except Int Unit) (world : native_world) (cif : ffi_cif)
    (instance_abi offset : Int) (parameters : List Int) (f : native_fn)
    (hfn : world.code (entry_point world.memory instance_abi offset) = some f)
    (hnargs : cif.nargs ≤ parameters.length + 1) :
    invoke check world cif instance_abi offset parameters
      = some
          (check (to_sint32
              (f ((instance_abi :: parameters).take cif.nargs) world.memory).1),
            (f ((instance_abi :: parameters).take cif.nargs) world.memory).2) := by
  have hlen : ¬ (invoke_args parameters).length < cif.nargs := by
    simp [invoke_args_eq]; omega
  have hload := load_all_take _ _ _ cif.nargs (load_all_invoke_args instance_abi parameters)
  simp only [invoke, ffi_call, hlen, if_false, hload, hfn]

/-- C8: when the callee returns the signed 32-bit status code `c` as its native
return value, `invoke` returns normally if `c` is zero and throws the status
error carrying `c` if `c` is not zero. -/
theorem C8_status_code (world : native_world) (cif : ffi_cif)
    (instance_abi offset : Int) (parameters : List Int) (f : native_fn) (c : Int)
    (hfn : world.code (entry_point world.memory instance_abi offset) = some f)
    (hnargs : cif.nargs ≤ parameters.length + 1)
    (hret : (f ((instance_abi :: parameters).take cif.nargs) world.memory).1 = c)
    (hlo : -2 ^ 31 ≤ c) (hhi : c < 2 ^ 31) :
    (c = 0 →
      invoke check_hresult world cif instance_abi offset parameters
        = some (.ok (), (f ((instance_abi :: parameters).take cif.nargs) world.memory).2)) ∧
    (c ≠ 0 →
      invoke check_hresult world cif instance_abi offset parameters
        = some (.error c,
            (f ((instance_abi :: parameters).take cif.nargs) world.memory).2)) := by
  rw [invoke_eq check_hresult world cif instance_abi offset parameters f hfn hnargs, hret,
    to_sint32_of_range c hlo hhi]
  constructor
  · intro h0; simp [check_hresult, h0]
  · intro hne; simp [check_hresult, hne]

/-- C8 at a component whose table entry 6 is a stub returning the status 5:
`invoke` throws the status error 5. -/
theorem C8_status_code_witness :
    ((5 : Int) = 0 →
      invoke check_hresult ⟨fun a => if a = 100 then 200 else if a = 206 then 300 else 0,
          fun a => if a = 300 then some (sentinel_stub 77 5) else none⟩
          ⟨.FFI_STDCALL, 2, [ffi_type_pointer, ffi_type_pointer], some ffi_type_sint32⟩
          100 6 [400]
        = some (.ok (), (sentinel_stub 77 5 (([100, 400] : List Int).take 2)
            (fun a => if a = 100 then 200 else if a = 206 then 300 else 0)).2)) ∧
    ((5 : Int) ≠ 0 →
      invoke check_hresult ⟨fun a => if a = 100 then 200 else if a = 206 then 300 else 0,
          fun a => if a = 300 then some (sentinel_stub 77 5) else none⟩
          ⟨.FFI_STDCALL, 2, [ffi_type_pointer, ffi_type_pointer], some ffi_type_sint32⟩
          100 6 [400]
        = some (.error 5, (sentinel_stub 77 5 (([100, 400] : List Int).take 2)
            (fun a => if a = 100 then 200 else if a = 206 then 300 else 0)).2)) :=
  C8_status_code ⟨fun a => if a = 100 then 200 else if a = 206 then 300 else 0,
      fun a => if a = 300 then some (sentinel_stub 77 5) else none⟩
    ⟨.FFI_STDCALL, 2, [ffi_type_pointer, ffi_type_pointer], some ffi_type_sint32⟩
    100 6 [400] (sentinel_stub 77 5) 5 rfl (by decide) rfl (by decide) (by decide)

/-- C9: the vector `args` that `invoke` hands to `ffi_call` has one pointer more
than `parameters` has elements; the pointer in slot 0 is the address of the
receiver (reading it gives the ABI pointer of the component), and the pointer
in slot `i + 1` is the address of element `i` of `parameters` (reading it
gives that element). -/
theorem C9_argument_pointers (check : Int → Except Int Unit) (world : native_world)
    (cif : ffi_cif) (instance_abi offset : Int) (parameters : List Int) :
    invoke check world cif instance_abi offset parameters
        = (ffi_call world ⟨instance_abi, parameters⟩ cif
              (entry_point world.memory instance_abi offset) (invoke_args parameters)).map
            (fun r => (check (to_sint32 r.1), r.2)) ∧
      (invoke_args parameters).length = parameters.length + 1 ∧
      (invoke_args parameters).get? 0 = some .vtable ∧
      invoke_frame.load ⟨instance_abi, parameters⟩ .vtable = some instance_abi ∧
      ∀ (i : Nat) (hi : i < parameters.length),
        (invoke_args parameters).get? (i + 1) = some (.parameter i) ∧
        invoke_frame.load ⟨instance_abi, parameters⟩ (.parameter i)
          = some (parameters.get ⟨i, hi⟩) := by
  refine ⟨?_, ?_, ?_, rfl, ?_⟩
  · simp only [invoke]
    cases ffi_call world ⟨instance_abi, parameters⟩ cif
      (entry_point world.memory instance_abi offset) (invoke_args parameters) <;> rfl
  · simp [invoke_args_eq]
  · simp [invoke_args_eq]
  · intro i hi
    constructor
    · simp [invoke_args_eq, List.getElem?_range' 0 1 hi]
    · simp [invoke_frame.load, List.getElem?_eq_getElem hi]

/-- C10: when the dispatch table of the component holds at index `offset` a stub
that writes a sentinel into the location its output argument names and returns
the status 0, `invoke` with a two-slot descriptor and the one parameter `out`
returns normally, and the memory it leaves is the memory with the sentinel
written at `out`: the stub at `offset`, and nothing else, has run. -/
theorem C10_stub_writes_sentinel (check : Int → Except Int Unit) (world : native_world)
    (cif : ffi_cif) (instance_abi offset out sentinel : Int)
    (hcheck : check 0 = .ok ())
    (hstub : world.code (world.memory (world.memory instance_abi + offset))
      = some (sentinel_stub sentinel 0))
    (hcif : cif.nargs = 2) :
    ∃ memory,
      invoke check world cif instance_abi offset [out] = some (.ok (), memory) ∧
      memory = Function.update world.memory out sentinel ∧
      memory out = sentinel := by
  refine ⟨Function.update world.memory out sentinel, ?_, rfl, by simp⟩
  rw [invoke_eq check world cif instance_abi offset [out] (sentinel_stub sentinel 0) hstub
    (by simp [hcif])]
  simp [hcif, sentinel_stub, to_sint32, hcheck]

/-- C10 at a component at address 100 whose table at 200 holds the stub at index
6, with the output slot at address 400 and the sentinel 77. -/
theorem C10_stub_writes_sentinel_witness :
    ∃ memory,
      invoke check_hresult
          ⟨fun a => if a = 100 then 200 else if a = 206 then 300 else 0,
            fun a => if a = 300 then some (sentinel_stub 77 0) else none⟩
          ⟨.FFI_STDCALL, 2, [ffi_type_pointer, ffi_type_pointer], some ffi_type_sint32⟩
          100 6 [400]
        = some (.ok (), memory) ∧
      memory
        = Function.update (fun a => if a = 100 then 200 else if a = 206 then 300 else 0)
            400 77 ∧
      memory 400 = 77 :=
  C10_stub_writes_sentinel check_hresult
    ⟨fun a => if a = 100 then 200 else if a = 206 then 300 else 0,
      fun a => if a = 300 then some (sentinel_stub 77 0) else none⟩
    ⟨.FFI_STDCALL, 2, [ffi_type_pointer, ffi_type_pointer], some ffi_type_sint32⟩
    100 6 400 77 rfl rfl rfl

/-! ## Theorems: the two signature analysers -/

/-- C16: `get_arg_types` and `get_method_ffi_types` agree on every signature:
either both throw "not implemented", or both return slot sequences of the
same length with the same slot kind at every position. -/
theorem C16_analysers_agree {P : Type} (signature : method_signature P) :
    (get_arg_types signature = .error "not implemented" ∧
        get_method_ffi_types signature = .error "not implemented") ∨
      ∃ a b, get_arg_types signature = .ok a ∧ get_method_ffi_types signature = .ok b ∧
        a.length = b.length ∧ ∀ i, a.get? i = b.get? i := by
  unfold get_arg_types get_method_ffi_types method_signature.has_params throw_invalid
  cases hp : signature.params with
  | cons x more => left; simp
  | nil =>
    cases hr : signature.return_signature.type with
    | none =>
      right
      exact ⟨[ffi_type_pointer], [ffi_type_pointer], by simp, by simp, rfl, fun _ => rfl⟩
    | some type =>
      cases ha : type.is_szarray with
      | true => left; simp [ha]
      | false =>
        right
        exact ⟨[ffi_type_pointer, ffi_type_pointer], [ffi_type_pointer, ffi_type_pointer],
          by simp [ha], by simp [ha], rfl, fun _ => rfl⟩

/-! ## Theorems: the depth of the recursion of `find_ns` -/

/-- The text after the first dot holds one dot less than the whole text. -/
theorem count_dot_drop (c : Char) (ns : Str) (d : Nat) (h : find_char c ns = some d) :
    ns.count c = (ns.drop (d + 1)).count c + 1 := by
  induction ns generalizing d with
  | nil => simp [find_char] at h
  | cons x xs ih =>
    simp only [find_char] at h
    split at h
    · rename_i hx
      simp only [Option.some.injEq] at h
      subst h
      simp [hx]
    · rename_i hx
      cases hh : find_char c xs with
      | none => simp [hh] at h
      | some e =>
        simp only [hh, Option.map_some', Option.some.injEq] at h
        subst h
        have hne : (x == c) = false := by simpa using hx
        simp [List.count_cons, hne, ih e hh]

/-- With a bound above the number of dots the bounded recursion returns what
the walk along the segments finds. -/
theorem find_ns_bounded_eq {M : Type} (depth : Nat) :
    ∀ (namespaces : NsMap M) (ns : Str), ns.count '.' < depth →
      find_ns_bounded depth namespaces ns
        = some (members_at (get_dotted_name_segments ns) namespaces) := by
  induction depth with
  | zero => intro _ ns h; exact absurd h (Nat.not_lt_zero _)
  | succ depth ih =>
    intro namespaces ns hdepth
    unfold find_ns_bounded
    cases hd : find_char '.' ns with
    | none =>
      rw [get_dotted_name_segments_no_dot ns hd, members_at_single]
      cases hf : namespaces.find ns <;> simp only [hf] <;> rfl
    | some dot_pos =>
      rw [get_dotted_name_segments_dot ns dot_pos hd,
        members_at_cons_of_ne_nil _ _ _ (get_dotted_name_segments_ne_nil _)]
      have hc := count_dot_drop '.' ns dot_pos hd
      cases hf : namespaces.find (List.take dot_pos ns) with
      | none => simp only [hf]
      | some it =>
        simp only [hf]
        exact ih it.sub_namespaces (ns.drop (dot_pos + 1)) (by omega)

/-- C18: `find_ns` terminates on every tree and every path: each recursive call
is made on the text after the first dot, which is strictly shorter than the
current path, and a depth of one more than the number of dots of the path is
enough for `find_ns` to return. -/
theorem C18_find_ns_depth {M : Type} (tree : NsMap M) (ns : Str) :
    find_ns_bounded (ns.count '.' + 1) tree ns = some (find_ns tree ns) ∧
      (∀ depth, ns.count '.' < depth →
        find_ns_bounded depth tree ns = some (find_ns tree ns)) ∧
      ∀ dot_pos, find_char '.' ns = some dot_pos →
        (ns.drop (dot_pos + 1)).length < ns.length := by
  rw [find_ns_eq_members_at]
  refine ⟨find_ns_bounded_eq _ tree ns (Nat.lt_succ_self _),
    fun depth hd => find_ns_bounded_eq depth tree ns hd, fun dot_pos hd => ?_⟩
  have := find_char_lt _ _ _ hd
  simp only [List.length_drop]
  omega

/-! ## Theorems: `find_ns` and the walk of the specification -/

theorem get_dotted_name_segments_eq_splitOn (ns : Str) :
    get_dotted_name_segments ns = ns.splitOn '.' := by
  induction ns with
  | nil => rfl
  | cons c cs ih =>
    simp only [get_dotted_name_segments, List.splitOn, List.splitOnP_cons] at ih ⊢
    rw [ih]
    by_cases hc : c = '.'
    · simp [hc]
    · simp only [hc, if_false, beq_iff_eq]
      cases hs : List.splitOnP (fun x => x == '.') cs with
      | nil => exact absurd hs (List.splitOnP_ne_nil _ _)
      | cons s ss => simp [List.modifyHead]

theorem NsMap.ordered_cons {M : Type} (k : Str) (sub : NsMap M) (mem : M) (rest : NsMap M) :
    (NsMap.cons k sub mem rest).ordered = true ↔
      sub.ordered = true ∧ (∀ k2 ∈ rest.keys, k < k2) ∧ rest.ordered = true := by
  simp [NsMap.ordered, and_assoc]

theorem NsMap.child_eq_none_of_not_mem_keys {M : Type} (m : NsMap M) (s : Str)
    (h : s ∉ m.keys) : m.child s = none := by
  induction m with
  | nil => rfl
  | cons k sub mem rest _ ih =>
    simp only [NsMap.keys, List.mem_cons, not_or] at h
    simp [NsMap.child, Ne.symm h.1, ih h.2]

/-- In a map whose keys are increasing, the search by the order of the keys
finds what going through the entries and comparing for equality finds. -/
theorem NsMap.find_eq_child {M : Type} (m : NsMap M) (s : Str) (h : m.ordered = true) :
    m.find s = m.child s := by
  induction m with
  | nil => rfl
  | cons k sub mem rest _ ih =>
    rw [NsMap.ordered_cons] at h
    simp only [NsMap.find, NsMap.child]
    by_cases h1 : s = k
    · simp [h1]
    · by_cases h2 : s < k
      · have hnot : s ∉ rest.keys := fun hm => lt_asymm h2 (h.2.1 s hm)
        simp [h1, Ne.symm h1, h2, NsMap.child_eq_none_of_not_mem_keys rest s hnot]
      · simp [h1, Ne.symm h1, h2, ih h.2.2]

/-- The children of a node found in an ordered map are ordered. -/
theorem NsMap.ordered_of_child {M : Type} (m : NsMap M) (s : Str) (q : winrt_ns M)
    (h : m.ordered = true) (hq : m.child s = some q) : q.sub_namespaces.ordered = true := by
  induction m with
  | nil => simp [NsMap.child] at hq
  | cons k sub mem rest _ ih =>
    rw [NsMap.ordered_cons] at h
    simp only [NsMap.child] at hq
    split at hq
    · simp only [Option.some.injEq] at hq
      subst hq
      exact h.1
    · exact ih h.2.2 hq

/-- On an ordered tree the walk with the container's `find` is the walk of the
specification. -/
theorem members_at_eq_spec_walk {M : Type} (segs : List Str) :
    ∀ (m : NsMap M), m.ordered = true → members_at segs m = spec_walk segs m := by
  induction segs with
  | nil => intro m _; rfl
  | cons s rest ih =>
    intro m h
    cases rest with
    | nil => simp [members_at, node_at, spec_walk, NsMap.find_eq_child m s h]
    | cons s2 rest =>
      have hrec := ih
      simp only [members_at, node_at, spec_walk, NsMap.find_eq_child m s h] at hrec ⊢
      cases hq : m.child s with
      | none => rfl
      | some q => exact hrec q.sub_namespaces (NsMap.ordered_of_child m s q h hq)

/-- C14: for every tree and every path, `find_ns` is the walk along the segments
of the path, each segment looked up with the container's `find` among the
children of the node reached so far: `nullptr` when a segment is missing, the
members of the node reached by the last segment otherwise. On a tree that
satisfies the invariant of `std::map` this is the lookup of the
specification, which splits the path on '.' and compares keys for exact
equality. (`find_ns` only returns a pointer: the tree is not part of its
result and so is not changed.) -/
theorem C14_find_ns_is_walk {M : Type} (tree : NsMap M) (p : Str) :
    find_ns tree p = members_at (p.splitOn '.') tree ∧
      (find_ns tree p = none ↔ node_at (p.splitOn '.') tree = none) ∧
      (∀ node, node_at (p.splitOn '.') tree = some node →
        find_ns tree p = some node.members) ∧
      (tree.ordered = true → find_ns tree p = spec_lookup tree p) := by
  rw [find_ns_eq_members_at, get_dotted_name_segments_eq_splitOn]
  refine ⟨rfl, ?_, ?_, fun h => members_at_eq_spec_walk _ tree h⟩
  · simp [members_at]
  · intro node hn
    simp [members_at, hn]

/-! ## Theorems: the entries of the descriptor cache -/

/-- A hit of `cif_cache.find` is an element whose key is the requested shape. -/
theorem cif_cache_find_some (env : ffi_env) (cache : List cif_entry) (s : List ffi_type)
    (i : Nat) (h : cif_cache_find env cache s = some i) :
    ∃ e, cache.get? i = some e ∧ e.key = s := by
  unfold cif_cache_find at h
  rw [List.findIdx?_eq_some_iff_getElem] at h
  obtain ⟨hlt, hp, _⟩ := h
  refine ⟨cache[i], by simp [List.getElem?_eq_getElem hlt], ?_⟩
  simp only [Bool.and_eq_true, beq_iff_eq] at hp
  exact hp.2

/-- The three ways a call of `get_cif` can go. -/
theorem get_cif_cases (env : ffi_env) (st : cif_state) (s : List ffi_type) :
    (∃ i, cif_cache_find env st.cif_cache s = some i ∧ get_cif env st s = (.ok i, st)) ∨
    (cif_cache_find env st.cif_cache s = none ∧
      get_cif env st s
        = (.error "ffi_prep_cif failure", ⟨st.cif_cache, st.prep_calls + 1⟩)) ∨
    (cif_cache_find env st.cif_cache s = none ∧
      get_cif env st s
        = (.ok st.cif_cache.length,
            ⟨st.cif_cache ++ [⟨s, ⟨.FFI_STDCALL, s.length, s, some ffi_type_sint32⟩, s⟩],
              st.prep_calls + 1⟩)) := by
  cases hf : cif_cache_find env st.cif_cache s with
  | some i => exact Or.inl ⟨i, rfl, get_cif_hit env st s i hf⟩
  | none =>
    right
    by_cases hok : env.accepts .FFI_STDCALL s.length ffi_type_sint32 s = .FFI_OK
    · exact Or.inr ⟨rfl, get_cif_miss_ok env st s hf hok⟩
    · left
      refine ⟨rfl, ?_⟩
      simp only [get_cif, hf, ffi_prep_cif, ne_eq, hok, not_false_eq_true, if_true,
        throw_invalid]

/-- C12: `get_cif` never evicts or alters a cached descriptor: every element of
the cache is, after the call, where it was and what it was; after a
successful call the cached keys are the keys cached before together with the
requested shape; the cache grows by at most one element, and by none on a
hit. -/
theorem C12_get_cif_keeps_entries (env : ffi_env) (st : cif_state) (s : List ffi_type) :
    (∀ i e, st.cif_cache.get? i = some e →
        (get_cif env st s).2.cif_cache.get? i = some e) ∧
      (∀ i, (get_cif env st s).1 = .ok i →
        ∀ k, k ∈ (get_cif env st s).2.cif_cache.map cif_entry.key ↔
          (k ∈ st.cif_cache.map cif_entry.key ∨ k = s)) ∧
      (get_cif env st s).2.cif_cache.length ≤ st.cif_cache.length + 1 ∧
      (∀ i, cif_cache_find env st.cif_cache s = some i →
        (get_cif env st s).2.cif_cache = st.cif_cache) := by
  rcases get_cif_cases env st s with ⟨i, hf, h⟩ | ⟨hf, h⟩ | ⟨hf, h⟩
  · rw [h]
    refine ⟨fun _ _ he => he, fun _ _ k => ?_, Nat.le_succ _, fun _ _ => rfl⟩
    obtain ⟨e, he, hk⟩ := cif_cache_find_some env _ s i hf
    constructor
    · exact fun hm => Or.inl hm
    · rintro (hm | rfl)
      · exact hm
      · rw [← hk]
        exact List.mem_map_of_mem _ (List.get?_mem he)
  · rw [h]
    exact ⟨fun _ _ he => he, fun _ hok => by simp at hok, Nat.le_succ _, fun _ _ => rfl⟩
  · rw [h]
    refine ⟨fun i e he => ?_, fun _ _ k => by simp, by simp, fun i hi => ?_⟩
    · have hlt : i < st.cif_cache.length := by
        rw [List.get?_eq_getElem?] at he
        exact (List.getElem?_eq_some_iff.mp he).1
      simp only [List.get?_eq_getElem?] at he ⊢
      rw [List.getElem?_append_left hlt]
      exact he
    · rw [hf] at hi
      cases hi

/-- One call of `get_cif` keeps a property of all cache elements that the
element it adds has. -/
theorem get_cif_entries (env : ffi_env) (st : cif_state) (s : List ffi_type)
    (good : cif_entry → Prop)
    (hnew : good ⟨s, ⟨.FFI_STDCALL, s.length, s, some ffi_type_sint32⟩, s⟩)
    (hst : ∀ e ∈ st.cif_cache, good e) :
    ∀ e ∈ (get_cif env st s).2.cif_cache, good e := by
  rcases get_cif_cases env st s with ⟨i, _, h⟩ | ⟨_, h⟩ | ⟨_, h⟩
  · rw [h]; exact hst
  · rw [h]; exact hst
  · rw [h]
    intro e he
    rcases List.mem_append.mp he with h1 | h1
    · exact hst e h1
    · simp only [List.mem_singleton] at h1
      rw [h1]; exact hnew

/-- C13: in every cache state reached from the empty cache by calls of `get_cif`,
each element holds a stored slot vector equal to its key and a descriptor
prepared with `FFI_STDCALL`, as many arguments as the key has slots, the
stored vector as argument kinds, and the return kind `ffi_type_sint32`. -/
theorem C13_cached_descriptors (env : ffi_env) (requests : List (List ffi_type))
    (e : cif_entry) (he : e ∈ (cif_state_after env requests).cif_cache) :
    e.second = e.key ∧ e.first.abi = .FFI_STDCALL ∧ e.first.nargs = e.key.length ∧
      e.first.arg_types = e.second ∧ e.first.rtype = some ffi_type_sint32 := by
  have hall : ∀ (reqs : List (List ffi_type)) (st : cif_state),
      (∀ x ∈ st.cif_cache,
        x.second = x.key ∧ x.first.abi = .FFI_STDCALL ∧ x.first.nargs = x.key.length ∧
          x.first.arg_types = x.second ∧ x.first.rtype = some ffi_type_sint32) →
      ∀ x ∈ (reqs.foldl (fun st arg_types => (get_cif env st arg_types).2) st).cif_cache,
        x.second = x.key ∧ x.first.abi = .FFI_STDCALL ∧ x.first.nargs = x.key.length ∧
          x.first.arg_types = x.second ∧ x.first.rtype = some ffi_type_sint32 := by
    intro reqs
    induction reqs with
    | nil => intro st hst; exact hst
    | cons s more ih =>
      intro st hst
      exact ih _ (get_cif_entries env st s _ ⟨rfl, rfl, rfl, rfl, rfl⟩ hst)
  exact hall requests ⟨[], 0⟩ (fun x hx => by cases hx) e he

/-- C13 at the state after one request for the two-slot shape, on a platform
whose `ffi_prep_cif` accepts every shape. -/
theorem C13_cached_descriptors_witness :
    ∃ e ∈ (cif_state_after ⟨64, fun _ => 0, fun _ _ _ _ => .FFI_OK⟩
        [[ffi_type_pointer, ffi_type_pointer]]).cif_cache,
      e.second = e.key ∧ e.first.abi = .FFI_STDCALL ∧ e.first.nargs = e.key.length ∧
        e.first.arg_types = e.second ∧ e.first.rtype = some ffi_type_sint32 :=
  ⟨⟨[ffi_type_pointer, ffi_type_pointer],
      ⟨.FFI_STDCALL, 2, [ffi_type_pointer, ffi_type_pointer], some ffi_type_sint32⟩,
      [ffi_type_pointer, ffi_type_pointer]⟩, by decide,
    C13_cached_descriptors ⟨64, fun _ => 0, fun _ _ _ _ => .FFI_OK⟩
      [[ffi_type_pointer, ffi_type_pointer]] _ (by decide)⟩

/-! ## Theorems: the nodes of the built tree -/

theorem NsMap.keys_entry {M : Type} (k : Str) (q : winrt_ns M) (rest : NsMap M) :
    (NsMap.entry k q rest).keys = k :: rest.keys := rfl

theorem NsMap.mem_keys_alter {M : Type} [Inhabited M] (f : winrt_ns M → winrt_ns M)
    (m : NsMap M) (s k : Str) :
    k ∈ (m.alter f s).keys ↔ k = s ∨ k ∈ m.keys := by
  induction m with
  | nil => simp [NsMap.alter, NsMap.keys_entry, NsMap.keys]
  | cons k0 sub mem rest _ ih =>
    simp only [NsMap.alter]
    by_cases h1 : s = k0
    · subst h1; simp [NsMap.keys_entry, NsMap.keys]
    · by_cases h2 : s < k0
      · simp [h1, h2, NsMap.keys_entry, NsMap.keys]
      · simp only [h1, h2, if_false, NsMap.keys, List.mem_cons, ih]
        tauto

theorem NsMap.ordered_entry {M : Type} (k : Str) (q : winrt_ns M) (rest : NsMap M) :
    (NsMap.entry k q rest).ordered = true ↔
      q.sub_namespaces.ordered = true ∧ (∀ k2 ∈ rest.keys, k < k2) ∧ rest.ordered = true :=
  NsMap.ordered_cons _ _ _ _

/-- The invariant of `std::map` is kept by `operator[]` followed by an update
that keeps it for the children of the node. -/
theorem NsMap.ordered_alter {M : Type} [Inhabited M] (f : winrt_ns M → winrt_ns M)
    (hf : ∀ q, q.sub_namespaces.ordered = true → (f q).sub_namespaces.ordered = true)
    (m : NsMap M) (s : Str) (h : m.ordered = true) : (m.alter f s).ordered = true := by
  induction m with
  | nil =>
    simp only [NsMap.alter, NsMap.ordered_entry]
    exact ⟨hf _ rfl, by simp [NsMap.keys], rfl⟩
  | cons k sub mem rest _ ih =>
    have h0 := h
    rw [NsMap.ordered_cons] at h
    simp only [NsMap.alter]
    by_cases h1 : s = k
    · simp only [h1, if_true, NsMap.ordered_entry]
      exact ⟨hf ⟨sub, mem⟩ h.1, h.2.1, h.2.2⟩
    · by_cases h2 : s < k
      · simp only [h1, h2, if_true, if_false, NsMap.ordered_entry]
        refine ⟨hf _ rfl, ?_, h0⟩
        intro k2 hk2
        simp only [NsMap.keys, List.mem_cons] at hk2
        rcases hk2 with rfl | hk2
        · exact h2
        · exact lt_trans h2 (h.2.1 k2 hk2)
      · simp only [h1, h2, if_false, NsMap.ordered_cons]
        refine ⟨h.1, ?_, ih h.2.2⟩
        intro k2 hk2
        rcases (NsMap.mem_keys_alter f rest s k2).mp hk2 with rfl | hk2
        · exact lt_of_le_of_ne (not_lt.mp h2) (Ne.symm h1)
        · exact h.2.1 k2 hk2

theorem walk_segments_ordered {M : Type} [Inhabited M] (members : M) (rest : List Str) :
    ∀ (s : Str) (m : NsMap M), m.ordered = true →
      (walk_segments members s rest m).ordered = true := by
  induction rest with
  | nil =>
    intro s m h
    exact NsMap.ordered_alter (fun q => ⟨q.sub_namespaces, members⟩) (fun _ hq => hq) m s h
  | cons s2 rest ih =>
    intro s m h
    exact NsMap.ordered_alter
      (fun q => ⟨walk_segments members s2 rest q.sub_namespaces, q.members⟩)
      (fun q hq => ih s2 q.sub_namespaces hq) m s h

theorem get_namespace_map_loop_ordered {M : Type} [Inhabited M] (c : List (Str × M)) :
    ∀ (root tree : NsMap M), get_namespace_map_loop c root = some tree →
      root.ordered = true → tree.ordered = true := by
  induction c with
  | nil =>
    intro root tree h hr
    simp only [get_namespace_map_loop, Option.some.injEq] at h
    subst h; exact hr
  | cons hd more ih =>
    intro root tree h hr
    obtain ⟨s, rest, _, h2⟩ := store_namespace_get_dotted_name_segments hd.2 hd.1 root
    simp only [get_namespace_map_loop, h2] at h
    exact ih _ tree h (walk_segments_ordered hd.2 rest s root hr)

theorem NsMap.find_eq_none_of_not_mem_keys {M : Type} (m : NsMap M) (s : Str)
    (h : s ∉ m.keys) : m.find s = none := by
  induction m with
  | nil => rfl
  | cons k sub mem rest _ ih =>
    simp only [NsMap.keys, List.mem_cons, not_or] at h
    simp only [NsMap.find, h.1, if_false, ih h.2]
    split <;> rfl

/-- A lookup by segments sees a map only through what `find` returns for the
first segment. -/
theorem members_at_congr {M : Type} (m1 m2 : NsMap M) (t : Str) (qs : List Str)
    (h : m1.find t = m2.find t) : members_at (t :: qs) m1 = members_at (t :: qs) m2 := by
  cases qs with
  | nil => simp [members_at_single, h]
  | cons t2 qs => simp only [members_at, node_at, h]

theorem members_at_of_find_none {M : Type} (m : NsMap M) (t : Str) (qs : List Str)
    (h : m.find t = none) : members_at (t :: qs) m = none := by
  cases qs with
  | nil => simp [members_at_single, h]
  | cons t2 qs => simp only [members_at, node_at, h, Option.map_none']

theorem NsMap.mem_nodes_cons {M : Type} (k : Str) (sub : NsMap M) (mem : M) (rest : NsMap M)
    (q : List Str) (x : M) :
    (q, x) ∈ (NsMap.cons k sub mem rest).nodes ↔
      (q = [k] ∧ x = mem) ∨ (∃ qs, q = k :: qs ∧ (qs, x) ∈ sub.nodes) ∨ (q, x) ∈ rest.nodes := by
  simp only [NsMap.nodes, List.mem_cons, List.mem_append, List.mem_map, Prod.mk.injEq]
  constructor
  · rintro ((h | ⟨n, hn, h1, h2⟩) | h)
    · exact Or.inl h
    · exact Or.inr (Or.inl ⟨n.1, h1.symm, by rw [← h2]; exact hn⟩)
    · exact Or.inr (Or.inr h)
  · rintro (h | ⟨qs, h1, h2⟩ | h)
    · exact Or.inl (Or.inl h)
    · exact Or.inl (Or.inr ⟨(qs, x), h2, h1.symm, rfl⟩)
    · exact Or.inr h

/-- The first key of the path of a node of a map is a key of the map. -/
theorem NsMap.head_mem_keys_of_mem_nodes {M : Type} (m : NsMap M) (q : List Str) (x : M)
    (h : (q, x) ∈ m.nodes) : ∃ t qs, q = t :: qs ∧ t ∈ m.keys := by
  induction m with
  | nil => simp [NsMap.nodes] at h
  | cons k sub mem rest _ ih =>
    rw [NsMap.mem_nodes_cons] at h
    rcases h with ⟨h1, _⟩ | ⟨qs, h1, _⟩ | h
    · exact ⟨k, [], h1, by simp [NsMap.keys]⟩
    · exact ⟨k, qs, h1, by simp [NsMap.keys]⟩
    · obtain ⟨t, qs, hq, ht⟩ := ih h
      exact ⟨t, qs, hq, by simp [NsMap.keys, ht]⟩

theorem NsMap.nil_not_mem_nodes {M : Type} (m : NsMap M) (x : M) : ¬ ([], x) ∈ m.nodes := by
  intro h
  obtain ⟨t, qs, hq, _⟩ := NsMap.head_mem_keys_of_mem_nodes m [] x h
  cases hq

/-- In an ordered tree the nodes are what lookups by segments find: a node with
path `q` and members `x` is listed exactly when following `q` leads to
members `x`. -/
theorem NsMap.mem_nodes_iff {M : Type} (m : NsMap M) :
    m.ordered = true → ∀ (q : List Str) (x : M), (q, x) ∈ m.nodes ↔ members_at q m = some x := by
  induction m with
  | nil =>
    intro _ q x
    simp [NsMap.nodes, members_at_nil]
  | cons k sub mem rest ihs ihr =>
    intro h q x
    rw [NsMap.ordered_cons] at h
    have hk : k ∉ rest.keys := fun hm => lt_irrefl k (h.2.1 k hm)
    have hhead : ∀ (qs : List Str), ¬ (k :: qs, x) ∈ rest.nodes := by
      intro qs hm
      obtain ⟨t2, qs2, hq, ht⟩ := NsMap.head_mem_keys_of_mem_nodes _ _ _ hm
      cases hq
      exact hk ht
    rw [NsMap.mem_nodes_cons]
    cases q with
    | nil =>
      constructor
      · rintro (⟨h1, _⟩ | ⟨qs, h1, _⟩ | h1)
        · cases h1
        · cases h1
        · exact absurd h1 (NsMap.nil_not_mem_nodes rest x)
      · intro hm
        simp [members_at, node_at] at hm
    | cons t qs =>
      by_cases htk : t = k
      · subst htk
        have hfind : (NsMap.cons t sub mem rest).find t = some ⟨sub, mem⟩ := by
          simp [NsMap.find]
        cases qs with
        | nil =>
          rw [members_at_single, hfind]
          constructor
          · rintro (⟨_, h1⟩ | ⟨qs, h1, h2⟩ | h1)
            · simp [h1]
            · simp only [List.cons.injEq, true_and] at h1
              subst h1
              exact absurd h2 (NsMap.nil_not_mem_nodes sub x)
            · exact absurd h1 (hhead [])
          · intro hm
            simp only [Option.map_some', Option.some.injEq] at hm
            exact Or.inl ⟨rfl, hm.symm⟩
        | cons t2 qs =>
          have hm : members_at (t :: t2 :: qs) (NsMap.cons t sub mem rest)
              = members_at (t2 :: qs) sub := by
            simp only [members_at, node_at, hfind]
          rw [hm, ← ihs h.1]
          constructor
          · rintro (⟨h1, _⟩ | ⟨qs2, h1, h2⟩ | h1)
            · simp at h1
            · simp only [List.cons.injEq, true_and] at h1
              rw [h1]; exact h2
            · exact absurd h1 (hhead _)
          · intro hn
            exact Or.inr (Or.inl ⟨t2 :: qs, rfl, hn⟩)
      · have hrest : ((t :: qs, x) ∈ (NsMap.cons k sub mem rest).nodes ↔
            (t :: qs, x) ∈ rest.nodes) := by
          rw [NsMap.mem_nodes_cons]
          constructor
          · rintro (⟨h1, _⟩ | ⟨qs2, h1, _⟩ | h1)
            · simp only [List.cons.injEq] at h1
              exact absurd h1.1 htk
            · simp only [List.cons.injEq] at h1
              exact absurd h1.1 htk
            · exact h1
          · exact fun h1 => Or.inr (Or.inr h1)
        rw [← NsMap.mem_nodes_cons, hrest, ihr h.2.2]
        by_cases hlt : t < k
        · have ht : t ∉ rest.keys := fun hm => lt_asymm hlt (h.2.1 t hm)
          have h1 : (NsMap.cons k sub mem rest).find t = none := by
            simp [NsMap.find, htk, hlt]
          rw [members_at_of_find_none _ t qs h1,
            members_at_of_find_none _ t qs (NsMap.find_eq_none_of_not_mem_keys rest t ht)]
        · have h1 : (NsMap.cons k sub mem rest).find t = rest.find t := by
            simp [NsMap.find, htk, hlt]
          rw [members_at_congr _ _ t qs h1]

theorem NsMap.mem_paths_iff {M : Type} (m : NsMap M) (q : List Str) :
    q ∈ m.paths ↔ ∃ x, (q, x) ∈ m.nodes := by
  simp only [NsMap.paths, List.mem_map]
  constructor
  · rintro ⟨⟨q2, x⟩, h, rfl⟩
    exact ⟨x, h⟩
  · rintro ⟨x, h⟩
    exact ⟨(q, x), h, rfl⟩

theorem NsMap.paths_cons {M : Type} (k : Str) (sub : NsMap M) (mem : M) (rest : NsMap M) :
    (NsMap.cons k sub mem rest).paths
      = [k] :: (sub.paths.map fun q => k :: q) ++ rest.paths := by
  simp [NsMap.paths, NsMap.nodes, List.map_map, Function.comp_def]

/-- In an ordered tree no two nodes have the same path. -/
theorem NsMap.nodup_paths {M : Type} (m : NsMap M) : m.ordered = true → m.paths.Nodup := by
  induction m with
  | nil => intro _; simp [NsMap.paths, NsMap.nodes]
  | cons k sub mem rest ihs ihr =>
    intro h
    rw [NsMap.ordered_cons] at h
    have hk : k ∉ rest.keys := fun hm => lt_irrefl k (h.2.1 k hm)
    have hhead : ∀ (qs : List Str), k :: qs ∉ rest.paths := by
      intro qs hm
      obtain ⟨x, hx⟩ := (NsMap.mem_paths_iff rest _).mp hm
      obtain ⟨t2, qs2, hq, ht⟩ := NsMap.head_mem_keys_of_mem_nodes _ _ _ hx
      cases hq
      exact hk ht
    have hnil : [] ∉ sub.paths := by
      intro hm
      obtain ⟨x, hx⟩ := (NsMap.mem_paths_iff sub _).mp hm
      exact NsMap.nil_not_mem_nodes sub x hx
    rw [NsMap.paths_cons, List.cons_append, List.nodup_cons, List.nodup_append]
    refine ⟨?_, ?_, ihr h.2.2, ?_⟩
    · intro hm
      rcases List.mem_append.mp hm with h1 | h1
      · obtain ⟨q, hq, he⟩ := List.mem_map.mp h1
        simp only [List.cons.injEq, true_and] at he
        exact hnil (he ▸ hq)
      · exact hhead [] h1
    · exact (ihs h.1).map (fun a b hab => by simpa using hab)
    · intro q h1 h2
      obtain ⟨q2, _, he⟩ := List.mem_map.mp h1
      rw [← he] at h2
      exact hhead q2 h2

/-- The paths of the nodes of the built tree are the non-empty initial parts of
the segment sequences of the inserted paths. -/
theorem get_namespace_map_mem_paths {M : Type} [Inhabited M] (c : List (Str × M))
    (tree : NsMap M) (h : get_namespace_map c = some tree) (q : List Str) :
    q ∈ tree.paths ↔
      (q ≠ [] ∧ ∃ p ∈ c.map Prod.fst, q <+: get_dotted_name_segments p) := by
  have hord := get_namespace_map_loop_ordered c _ tree h rfl
  rw [NsMap.mem_paths_iff]
  cases q with
  | nil =>
    simp only [ne_eq, not_true_eq_false, false_and, iff_false]
    rintro ⟨x, hx⟩
    exact NsMap.nil_not_mem_nodes tree x hx
  | cons t qs =>
    have hs := get_namespace_map_loop_isSome c t qs _ tree h
    rw [members_at_nil] at hs
    simp only [Option.isSome_none, Bool.false_eq_true, false_or] at hs
    simp only [NsMap.mem_nodes_iff tree hord, ← Option.isSome_iff_exists, hs]
    simp

/-- C11: after "A.B.C" and "A.B.D" are inserted together both resolve to their
own member sets and the tree has exactly the four nodes "A", "A.B", "A.B.C"
and "A.B.D", so one node for "A" and one for "A.B", shared by both paths. In
general the built tree has exactly one node for every distinct non-empty
initial part of the segment sequences of the inserted paths: no two nodes
have the same path, and the paths of the nodes are those initial parts. -/
theorem C11_one_node_per_initial_part {M : Type} [Inhabited M] (c : List (Str × M))
    (m1 m2 : M) :
    (∃ tree, get_namespace_map [("A.B.C".toList, m1), ("A.B.D".toList, m2)] = some tree ∧
        find_ns tree "A.B.C".toList = some m1 ∧ find_ns tree "A.B.D".toList = some m2 ∧
        tree.paths
          = [["A".toList], ["A".toList, "B".toList],
              ["A".toList, "B".toList, "C".toList], ["A".toList, "B".toList, "D".toList]]) ∧
      ∃ tree, get_namespace_map c = some tree ∧ tree.paths.Nodup ∧
        (∀ q, q ∈ tree.paths ↔
          (q ≠ [] ∧ ∃ p ∈ c.map Prod.fst, q <+: get_dotted_name_segments p)) ∧
        tree.paths.Perm
          ((c.map fun pm =>
              (get_dotted_name_segments pm.1).inits.filter fun q => decide (q ≠ [])).flatten.dedup) := by
  constructor
  · exact ⟨_, rfl, rfl, rfl, rfl⟩
  · obtain ⟨tree, ht⟩ := get_namespace_map_loop_returns c (NsMap.nil : NsMap M)
    have hord := get_namespace_map_loop_ordered c _ tree ht rfl
    have hmem := get_namespace_map_mem_paths c tree ht
    refine ⟨tree, ht, NsMap.nodup_paths tree hord, hmem, ?_⟩
    rw [List.perm_ext_iff_of_nodup (NsMap.nodup_paths tree hord) (List.nodup_dedup _)]
    intro q
    rw [hmem q, List.mem_dedup, List.mem_flatten]
    constructor
    · rintro ⟨hne, p, hp, hq⟩
      obtain ⟨pm, hpm, rfl⟩ := List.mem_map.mp hp
      exact ⟨_, List.mem_map.mpr ⟨pm, hpm, rfl⟩, by simp [hq, hne]⟩
    · rintro ⟨l, hl, hq⟩
      obtain ⟨pm, hpm, rfl⟩ := List.mem_map.mp hl
      simp only [List.mem_filter, List.mem_inits, decide_eq_true_eq] at hq
      exact ⟨hq.2, pm.1, List.mem_map_of_mem _ hpm, hq.1⟩

/-! ## Theorems: the members of the nodes of the built tree -/

theorem get_dotted_name_segments_no_dot_inside (ns : Str) :
    ∀ l ∈ get_dotted_name_segments ns, '.' ∉ l := by
  induction ns with
  | nil => simp [get_dotted_name_segments]
  | cons c cs ih =>
    simp only [get_dotted_name_segments]
    split
    · intro l hl
      rcases List.mem_cons.mp hl with rfl | hl
      · simp
      · exact ih l hl
    · rename_i hc
      cases hs : get_dotted_name_segments cs with
      | nil => exact absurd hs (get_dotted_name_segments_ne_nil cs)
      | cons s ss =>
        rw [hs] at ih
        intro l hl
        rcases List.mem_cons.mp hl with rfl | hl
        · have := ih s (List.mem_cons_self _ _)
          simp only [List.mem_cons, not_or]
          exact ⟨fun e => hc e.symm, this⟩
        · exact ih l (List.mem_cons_of_mem _ hl)

/-- The segments of the dotted path of a node are the keys that lead to the node. -/
theorem get_dotted_name_segments_dotted_name (q : List Str) (p : Str) (hne : q ≠ [])
    (hq : q <+: get_dotted_name_segments p) :
    get_dotted_name_segments (dotted_name q) = q := by
  rw [get_dotted_name_segments_eq_splitOn, dotted_name]
  refine List.splitOn_intercalate q '.' (fun l hl => ?_) hne
  exact get_dotted_name_segments_no_dot_inside p l (hq.subset hl)

/-- Members that are absent or default along segments that are not those of a
path still to be stored are absent or default after the loop. -/
theorem get_namespace_map_loop_default {M : Type} [Inhabited M] (c : List (Str × M))
    (t : Str) (qs : List Str) :
    ∀ (root tree : NsMap M), get_namespace_map_loop c root = some tree →
      (∀ pm ∈ c, get_dotted_name_segments pm.1 ≠ t :: qs) →
      (∀ x, members_at (t :: qs) root = some x → x = default) →
      ∀ x, members_at (t :: qs) tree = some x → x = default := by
  induction c with
  | nil =>
    intro root tree h _ hr
    simp only [get_namespace_map_loop, Option.some.injEq] at h
    subst h; exact hr
  | cons pm more ih =>
    intro root tree h hne hr
    obtain ⟨s, rest, h1, h2⟩ := store_namespace_get_dotted_name_segments pm.2 pm.1 root
    simp only [get_namespace_map_loop, h2] at h
    refine ih _ tree h (fun pm2 hm => hne pm2 (List.mem_cons_of_mem _ hm)) ?_
    have hq : t :: qs ≠ s :: rest := by
      have := hne pm (List.mem_cons_self _ _)
      rw [h1] at this
      exact fun e => this e.symm
    intro x hx
    rw [members_at_walk_segments, if_neg hq] at hx
    split at hx
    · simp only [Option.some.injEq] at hx
      cases hm : members_at (t :: qs) root with
      | none => rw [hm] at hx; exact hx.symm
      | some y => rw [hm] at hx; rw [← hx]; exact hr y hm
    · exact hr x hx

/-- C15: for pairwise distinct inserted paths, every node of the built tree
whose full dotted path is not an inserted path carries the default member
set, and every node whose full dotted path is an inserted path carries the
member set inserted for it. -/
theorem C15_members_of_nodes {M : Type} [Inhabited M] (c : List (Str × M))
    (hdistinct : (c.map Prod.fst).Nodup) :
    ∃ tree, get_namespace_map c = some tree ∧
      ∀ n ∈ tree.nodes,
        (dotted_name n.1 ∉ c.map Prod.fst → n.2 = default) ∧
        (∀ m, (dotted_name n.1, m) ∈ c → n.2 = m) := by
  obtain ⟨tree, ht⟩ := get_namespace_map_loop_returns c (NsMap.nil : NsMap M)
  have hord := get_namespace_map_loop_ordered c _ tree ht rfl
  refine ⟨tree, ht, fun n hn => ?_⟩
  have hat : members_at n.1 tree = some n.2 := (NsMap.mem_nodes_iff tree hord n.1 n.2).mp hn
  have hpath := (get_namespace_map_mem_paths c tree ht n.1).mp
    ((NsMap.mem_paths_iff tree n.1).mpr ⟨n.2, hn⟩)
  obtain ⟨hne, p, _, hp⟩ := hpath
  have hsegs := get_dotted_name_segments_dotted_name n.1 p hne hp
  constructor
  · intro hnot
    cases hq : n.1 with
    | nil => exact absurd hq hne
    | cons t qs =>
      rw [hq] at hat
      refine get_namespace_map_loop_default c t qs _ tree ht ?_ ?_ n.2 hat
      · intro pm hpm he
        apply hnot
        rw [hq, ← he, dotted_name, intercalate_get_dotted_name_segments]
        exact List.mem_map_of_mem _ hpm
      · intro x hx
        rw [members_at_nil] at hx
        cases hx
  · intro m hm
    have hst := get_namespace_map_loop_stored c _ tree ht hdistinct _ hm
    simp only [hsegs] at hst
    rw [hat] at hst
    exact Option.some.inj hst

/-- C15 at the paths "A.B.C" and "A.B.D" with members 1 and 2. -/
theorem C15_members_of_nodes_witness :
    (([("A.B.C".toList, 1), ("A.B.D".toList, 2)] : List (Str × Nat)).map Prod.fst).Nodup ∧
      ∃ tree,
        get_namespace_map ([("A.B.C".toList, 1), ("A.B.D".toList, 2)] : List (Str × Nat))
          = some tree ∧
        ∀ n ∈ tree.nodes,
          (dotted_name n.1
              ∉ ([("A.B.C".toList, 1), ("A.B.D".toList, 2)] : List (Str × Nat)).map Prod.fst →
            n.2 = default) ∧
          (∀ m, (dotted_name n.1, m)
              ∈ ([("A.B.C".toList, 1), ("A.B.D".toList, 2)] : List (Str × Nat)) → n.2 = m) :=
  ⟨by decide, C15_members_of_nodes _ (by decide)⟩

/-! ## Theorems: the order of insertion -/

/-- Two updates through `operator[]` with the same key amount to one. -/
theorem NsMap.alter_alter_same {M : Type} [Inhabited M] (f g : winrt_ns M → winrt_ns M)
    (m : NsMap M) (s : Str) :
    (m.alter g s).alter f s = m.alter (fun q => f (g q)) s := by
  induction m with
  | nil => simp [NsMap.alter, NsMap.entry]
  | cons k sub mem rest _ ih =>
    by_cases h1 : s = k
    · simp [NsMap.alter, NsMap.entry, h1]
    · by_cases h2 : s < k
      · simp [NsMap.alter, NsMap.entry, h1, h2]
      · simp [NsMap.alter, h1, h2, ih]

/-- Updates through `operator[]` with different keys can be exchanged. -/
theorem NsMap.alter_comm {M : Type} [Inhabited M] (f g : winrt_ns M → winrt_ns M)
    (m : NsMap M) (s t : Str) (hne : s ≠ t) :
    (m.alter g t).alter f s = (m.alter f s).alter g t := by
  have hne2 : t ≠ s := Ne.symm hne
  induction m with
  | nil =>
    rcases lt_or_gt_of_ne hne with hlt | hgt
    · have h3 : ¬ t < s := lt_asymm hlt
      simp [NsMap.alter, NsMap.entry, hne, hne2, hlt, h3]
    · have h3 : ¬ s < t := lt_asymm hgt
      simp [NsMap.alter, NsMap.entry, hne, hne2, hgt, h3]
  | cons k sub mem rest _ ih =>
    by_cases hs : s = k
    · subst hs
      by_cases ht : t < s
      · have h3 : ¬ s < t := lt_asymm ht
        simp [NsMap.alter, NsMap.entry, hne, hne2, ht, h3]
      · simp [NsMap.alter, NsMap.entry, hne, hne2, ht]
    · by_cases ht : t = k
      · subst ht
        by_cases hs2 : s < t
        · have h3 : ¬ t < s := lt_asymm hs2
          simp [NsMap.alter, NsMap.entry, hne, hne2, hs2, h3]
        · simp [NsMap.alter, NsMap.entry, hne, hne2, hs2]
      · by_cases hsk : s < k
        · by_cases htk : t < k
          · rcases lt_or_gt_of_ne hne with hlt | hgt
            · have h3 : ¬ t < s := lt_asymm hlt
              simp [NsMap.alter, NsMap.entry, hne, hne2, hs, ht, hsk, htk, hlt, h3]
            · have h3 : ¬ s < t := lt_asymm hgt
              simp [NsMap.alter, NsMap.entry, hne, hne2, hs, ht, hsk, htk, hgt, h3]
          · have hkt : k < t := lt_of_le_of_ne (not_lt.mp htk) (Ne.symm ht)
            have hst : s < t := lt_trans hsk hkt
            have h3 : ¬ t < s := lt_asymm hst
            simp [NsMap.alter, NsMap.entry, hne, hne2, hs, ht, hsk, htk, hst, h3]
        · by_cases htk : t < k
          · have hks : k < s := lt_of_le_of_ne (not_lt.mp hsk) (Ne.symm hs)
            have hts : t < s := lt_trans htk hks
            have h3 : ¬ s < t := lt_asymm hts
            simp [NsMap.alter, NsMap.entry, hne, hne2, hs, ht, hsk, htk, hts, h3]
          · simp [NsMap.alter, hs, ht, hsk, htk, ih]

/-- Storing along two different segment sequences gives the same tree in
either order. -/
theorem walk_segments_comm {M : Type} [Inhabited M] (m1 m2 : M) (rest : List Str) :
    ∀ (s t : Str) (rest2 : List Str) (m : NsMap M), s :: rest ≠ t :: rest2 →
      walk_segments m1 s rest (walk_segments m2 t rest2 m)
        = walk_segments m2 t rest2 (walk_segments m1 s rest m) := by
  induction rest with
  | nil =>
    intro s t rest2 m hne
    by_cases hst : s = t
    · subst hst
      cases rest2 with
      | nil => exact absurd rfl hne
      | cons t2 rest2 =>
        simp only [walk_segments, NsMap.alter_alter_same]
    · cases rest2 with
      | nil => simp only [walk_segments]; exact NsMap.alter_comm _ _ m s t hst
      | cons t2 rest2 => simp only [walk_segments]; exact NsMap.alter_comm _ _ m s t hst
  | cons s2 rest ih =>
    intro s t rest2 m hne
    by_cases hst : s = t
    · subst hst
      cases rest2 with
      | nil => simp only [walk_segments, NsMap.alter_alter_same]
      | cons t2 rest2 =>
        have hne2 : s2 :: rest ≠ t2 :: rest2 := fun e => hne (by rw [e])
        simp only [walk_segments, NsMap.alter_alter_same]
        congr 1
        funext q
        rw [ih s2 t2 rest2 q.sub_namespaces hne2]
    · cases rest2 with
      | nil => simp only [walk_segments]; exact NsMap.alter_comm _ _ m s t hst
      | cons t2 rest2 => simp only [walk_segments]; exact NsMap.alter_comm _ _ m s t hst

/-- The loop of `get_namespace_map` over a list and over a rearrangement of it
ends with the same tree, when the paths are pairwise distinct. -/
theorem get_namespace_map_loop_perm {M : Type} [Inhabited M] (c1 c2 : List (Str × M))
    (hperm : c1.Perm c2) :
    (c1.map Prod.fst).Nodup →
      ∀ root : NsMap M, get_namespace_map_loop c1 root = get_namespace_map_loop c2 root := by
  induction hperm with
  | nil => intro _ _; rfl
  | cons x _ ih =>
    intro hnd root
    simp only [List.map_cons, List.nodup_cons] at hnd
    obtain ⟨s, rest, _, h2⟩ := store_namespace_get_dotted_name_segments x.2 x.1 root
    simp only [get_namespace_map_loop, h2]
    exact ih hnd.2 _
  | swap x y l =>
    intro hnd root
    simp only [List.map_cons, List.nodup_cons, List.mem_cons, not_or] at hnd
    obtain ⟨s, rest, hx1, hx2⟩ := store_namespace_get_dotted_name_segments x.2 x.1 root
    obtain ⟨t, rest2, hy1, hy2⟩ := store_namespace_get_dotted_name_segments y.2 y.1 root
    obtain ⟨_, _, hx3, hx4⟩ := store_namespace_get_dotted_name_segments x.2 x.1
      (walk_segments y.2 t rest2 root)
    obtain ⟨_, _, hy3, hy4⟩ := store_namespace_get_dotted_name_segments y.2 y.1
      (walk_segments x.2 s rest root)
    rw [hx1] at hx3
    rw [hy1] at hy3
    cases hx3
    cases hy3
    have hne : s :: rest ≠ t :: rest2 := by
      intro e
      rw [← hx1, ← hy1] at e
      exact hnd.1.1 (get_dotted_name_segments_injective e).symm
    simp only [get_namespace_map_loop, hx2, hy2, hx4, hy4]
    rw [walk_segments_comm x.2 y.2 rest s t rest2 root hne]
  | trans h1 _ ih1 ih2 =>
    intro hnd root
    rw [ih1 hnd root, ih2 (((h1.map Prod.fst).nodup_iff).mp hnd) root]

/-- C17: the tree built by `get_namespace_map` does not depend on the order in
which the namespaces are visited: for pairwise distinct paths, building from
a list and from a rearrangement of it gives equal trees. -/
theorem C17_order_independent {M : Type} [Inhabited M] (c1 c2 : List (Str × M))
    (hperm : c1.Perm c2) (hdistinct : (c1.map Prod.fst).Nodup) :
    ∃ tree, get_namespace_map c1 = some tree ∧ get_namespace_map c2 = some tree := by
  obtain ⟨tree, ht⟩ := get_namespace_map_loop_returns c1 (NsMap.nil : NsMap M)
  refine ⟨tree, ht, ?_⟩
  rw [← ht]
  exact (get_namespace_map_loop_perm c1 c2 hperm hdistinct .nil).symm

/-- C17 at the paths "A.B.C", "A" and "A.B.D" and the same paths in another order. -/
theorem C17_order_independent_witness :
    ∃ tree,
      get_namespace_map
          ([("A.B.C".toList, 1), ("A".toList, 3), ("A.B.D".toList, 2)] : List (Str × Nat))
        = some tree ∧
      get_namespace_map
          ([("A".toList, 3), ("A.B.C".toList, 1), ("A.B.D".toList, 2)] : List (Str × Nat))
        = some tree :=
  C17_order_independent _ _ (List.Perm.swap _ _ _) (by decide)

end Foo
